import Mathlib

/-!
# Verification of the Text2Learn core routines

This file gives a shallow embedding, in Lean 4, of the four core text-processing
routines of the Text2Learn repository:

* the Outline Parser (`AIService._parse_course_outline`),
* the Quiz Parser (`AIService._parse_quiz` with `AIService._is_valid_quiz`),
* the Video Ranker (`YouTubeService._select_best_video` with
  `YouTubeService._parse_duration`),
* the two Quiz Scorers (`app.calculate_quiz_score` and
  `utils/quiz_generator.calculate_quiz_score`), together with the option
  shuffler `utils/quiz_generator.shuffle_quiz_options`.

Modelling conventions:

* A Python string is modelled as a `List Char` (`PyStr`), so every string
  operation is an executable, kernel-reducible list function.
* Python dictionaries with a fixed key universe (quiz records) are modelled as
  structures whose fields are `Option`-typed: `none` means "key absent".
* The insertion-ordered Python dict used by the outline parser is modelled as an
  association list with unique keys; updating an existing key keeps its
  position (as CPython dicts do), a new key is appended.
* Fallible field accesses (`video['statistics']`, `int(...)`) are modelled with
  `Option`; a `none` anywhere inside the per-video `try` block models the
  exception that makes the candidate be skipped.
* Python float arithmetic in the video scorer and the quiz scorers is modelled
  as exact rational arithmetic (`ℚ`).  At every concrete input used in a proof
  below the floating-point computation of the source agrees with the exact one.
-/

namespace Text2Learn

/-- A Python string, modelled as its list of characters. -/
abbrev PyStr := List Char

/-- The six ASCII whitespace characters recognised by Python's `str.strip`,
`str.split()` and the regex class `\s`. -/
def pyIsSpace (c : Char) : Bool :=
  c = ' ' || c = '\t' || c = '\n' || c = '\r' || c = '\x0b' || c = '\x0c'

/-- Python `s.lstrip()`. -/
def pyLStrip (s : PyStr) : PyStr := s.dropWhile pyIsSpace

/-- Python `s.rstrip()`. -/
def pyRStrip (s : PyStr) : PyStr := List.rdropWhile pyIsSpace s

/-- Python `s.strip()`. -/
def pyStrip (s : PyStr) : PyStr := pyRStrip (pyLStrip s)

/-- Python `s.lower()` (ASCII). -/
def pyLower (s : PyStr) : PyStr := s.map Char.toLower

/-- Python `s.upper()` (ASCII). -/
def pyUpper (s : PyStr) : PyStr := s.map Char.toUpper

/-- Python `s.split(sep, 1)`: the pair (before the first `sep`, after the first
`sep`).  When `sep` does not occur, the second component is `[]` (the source
only uses index `[1]` after checking `sep in s`). -/
def splitFirst (sep : Char) (s : PyStr) : PyStr × PyStr :=
  (s.takeWhile (fun c => c ≠ sep), (s.dropWhile (fun c => c ≠ sep)).drop 1)

/-- Python `s.split('\n')`: split at every newline, keeping empty segments. -/
def splitLines : PyStr → List PyStr
  | [] => [[]]
  | c :: rest =>
    let r := splitLines rest
    if c = '\n' then [] :: r
    else (c :: r.headI) :: r.tail

/-- Join lines with `'\n'` (the inverse textual format used for round-trips). -/
def joinLines : List PyStr → PyStr
  | [] => []
  | [l] => l
  | l :: rest => l ++ '\n' :: joinLines rest

/-! ## The outline dictionary

`_parse_course_outline` builds a CPython `dict` keyed by module title.  We model
it as an association list with unique keys: assigning to an existing key
replaces its value in place (CPython keeps the original insertion position),
assigning to a new key appends it. -/

/-- The `modules` dictionary: module title → list of subtopics. -/
abbrev OutlineDict := List (PyStr × List PyStr)

/-- `modules[k] = v` on a CPython insertion-ordered dict. -/
def dictSet (d : OutlineDict) (k : PyStr) (v : List PyStr) : OutlineDict :=
  if d.any (fun p => p.1 = k) then
    d.map (fun p => if p.1 = k then (p.1, v) else p)
  else d ++ [(k, v)]

/-- `modules[k].append(x)` (the source only calls it when `k` is present). -/
def dictAppend (d : OutlineDict) (k : PyStr) (x : PyStr) : OutlineDict :=
  d.map (fun p => if p.1 = k then (p.1, p.2 ++ [x]) else p)

/-! ## The Outline Parser (`AIService._parse_course_outline`) -/

/-- The literal `"Module"`. -/
def kwModule : PyStr := "Module".toList

/-- One iteration of the `for line in lines` loop of
`AIService._parse_course_outline`.  The state is the pair
(`modules`, `current_module`); `current_module = none` models Python `None`. -/
def outlineStep (st : OutlineDict × Option PyStr) (rawLine : PyStr) :
    OutlineDict × Option PyStr :=
  let line := pyStrip rawLine
  if line = [] then st
  else if kwModule.isPrefixOf line then
    if line.contains ':' then
      let current := pyStrip (splitFirst ':' line).2
      (dictSet st.1 current [], some current)
    else st
  else
    match st.2 with
    | some m =>
      -- `elif line.startswith('-') and current_module:`
      -- (an empty-string `current_module` is falsy in Python)
      if line.headI = '-' ∧ line ≠ [] ∧ m ≠ [] then
        let subtopic := pyStrip (line.drop 1)
        if subtopic ≠ [] then (dictAppend st.1 m subtopic, st.2) else st
      else st
    | none => st

/-- `AIService._parse_course_outline`. -/
def parse_course_outline (outline_text : PyStr) : OutlineDict :=
  ((splitLines (pyStrip outline_text)).foldl outlineStep ([], none)).1

/-! ## The Quiz Parser (`AIService._parse_quiz`)

A quiz record is a Python dict whose keys range over the seven fixed names
below; we model it as a structure of `Option` fields (`none` = key absent). -/

/-- The `current_question` dict of `_parse_quiz` (also the shape of quiz dicts
consumed by the scorers and the shuffler). -/
structure QuizDict where
  question : Option PyStr := none
  option_a : Option PyStr := none
  option_b : Option PyStr := none
  option_c : Option PyStr := none
  option_d : Option PyStr := none
  correct_answer : Option PyStr := none
  explanation : Option PyStr := none
deriving DecidableEq

/-- Python truthiness of `quiz.get(field)`: present and non-empty. -/
def truthy : Option PyStr → Bool
  | some s => s ≠ []
  | none => false

/-- Python truthiness of the `current_question` dict itself: it has a key. -/
def QuizDict.nonEmpty (q : QuizDict) : Bool :=
  q.question.isSome || q.option_a.isSome || q.option_b.isSome ||
    q.option_c.isSome || q.option_d.isSome || q.correct_answer.isSome ||
    q.explanation.isSome

/-- `any(key.startswith('option_') for key in current_question.keys())`. -/
def QuizDict.hasOptionKey (q : QuizDict) : Bool :=
  q.option_a.isSome || q.option_b.isSome || q.option_c.isSome || q.option_d.isSome

/-- `AIService._is_valid_quiz`: all six required fields present and truthy. -/
def is_valid_quiz (q : QuizDict) : Bool :=
  truthy q.question && truthy q.option_a && truthy q.option_b &&
    truthy q.option_c && truthy q.option_d && truthy q.correct_answer

/-- `current_question[f'option_{letter.lower()}'] = text`. -/
def setOption (q : QuizDict) (letter : Char) (text : PyStr) : QuizDict :=
  if letter = 'A' then { q with option_a := some text }
  else if letter = 'B' then { q with option_b := some text }
  else if letter = 'C' then { q with option_c := some text }
  else { q with option_d := some text }

/-- Strip a literal pattern prefix: `some` of the remainder when `pat` is a
prefix of `s`, else `none`. -/
def dropPre : PyStr → PyStr → Option PyStr
  | [], s => some s
  | _, [] => none
  | p :: ps, c :: cs => if c = p then dropPre ps cs else none

/-- `re.match(r'^Question\s+\d+:?', line, re.IGNORECASE)`: after the literal
`Question` (any case) comes at least one whitespace, then at least one digit;
the optional colon and the rest of the line are unconstrained. -/
def matchQuestion (line : PyStr) : Bool :=
  match dropPre ("question".toList) (pyLower line) with
  | none => false
  | some r =>
    match r with
    | [] => false
    | c :: _ =>
      pyIsSpace c &&
        (match r.dropWhile pyIsSpace with
         | d :: _ => d.isDigit
         | [] => false)

/-- `re.match(r'^([A-D])[\):]\s*(.+)$', line)` (case-sensitive): returns the
option letter and group 2.  `\s*` is greedy but backtracks so that `(.+)` keeps
at least one character. -/
def matchOption (line : PyStr) : Option (Char × PyStr) :=
  match line with
  | c :: b :: rest =>
    if (c = 'A' || c = 'B' || c = 'C' || c = 'D') &&
        (b = ')' || b = ':') && rest ≠ [] then
      let k := min ((rest.takeWhile pyIsSpace).length) (rest.length - 1)
      some (c, rest.drop k)
    else none
  | _ => none

/-- `re.match(r'^Correct Answer:?\s*([A-D])', line, re.IGNORECASE)` viewed as a
Boolean test (the source only tests the match for truthiness). -/
def matchCorrectAnswer (line : PyStr) : Bool :=
  match dropPre ("correct answer".toList) (pyLower line) with
  | none => false
  | some r =>
    let r1 := match r with
      | ':' :: t => t
      | t => t
    match r1.dropWhile pyIsSpace with
    | c :: _ => c = 'a' || c = 'b' || c = 'c' || c = 'd'
    | [] => false

/-- `re.search(r'([A-D])', line)` (case-sensitive): the first uppercase letter
`A`–`D` occurring anywhere in the line. -/
def firstUpperAD (line : PyStr) : Option Char :=
  line.find? (fun c => c = 'A' || c = 'B' || c = 'C' || c = 'D')

/-- `re.match(r'^Explanation:', line, re.IGNORECASE)`. -/
def matchExplanation (line : PyStr) : Bool :=
  (dropPre ("explanation:".toList) (pyLower line)).isSome

/-- The state of the `_parse_quiz` loop: the accumulated `questions` list, the
`current_question` buffer and the `reading_explanation` flag. -/
structure QuizState where
  questions : List QuizDict
  current : QuizDict
  readingExplanation : Bool
deriving DecidableEq

/-- One iteration of the `for line in lines` loop of `AIService._parse_quiz`. -/
def quizStep (st : QuizState) (rawLine : PyStr) : QuizState :=
  let line := pyStrip rawLine
  if line = [] then
    -- blank line: flush on validity; the buffer is reset only inside the flush
    if st.current.nonEmpty && is_valid_quiz st.current then
      ⟨st.questions ++ [st.current], {}, false⟩
    else st
  else if matchQuestion line then
    -- a question header flushes a valid buffer and always resets
    if st.current.nonEmpty && is_valid_quiz st.current then
      ⟨st.questions ++ [st.current], {}, false⟩
    else ⟨st.questions, {}, false⟩
  else
    match matchOption line with
    | some (letter, text) =>
      ⟨st.questions, setOption st.current letter (pyStrip text), false⟩
    | none =>
      if matchCorrectAnswer line then
        match firstUpperAD line with
        | some c =>
          ⟨st.questions,
            { st.current with correct_answer := some [c.toUpper] }, false⟩
        | none => ⟨st.questions, st.current, false⟩
      else if matchExplanation line then
        let e := if line.contains ':' then pyStrip (splitFirst ':' line).2 else []
        ⟨st.questions, { st.current with explanation := some e }, true⟩
      else if st.readingExplanation && truthy st.current.explanation then
        ⟨st.questions,
          { st.current with
              explanation := some ((st.current.explanation.getD []) ++ ' ' :: line) },
          st.readingExplanation⟩
      else if !truthy st.current.question && !(("**".toList).isPrefixOf line) then
        ⟨st.questions, { st.current with question := some line }, st.readingExplanation⟩
      else if truthy st.current.question && !st.current.hasOptionKey then
        ⟨st.questions,
          { st.current with
              question := some ((st.current.question.getD []) ++ ' ' :: line) },
          st.readingExplanation⟩
      else st

/-- `AIService._parse_quiz`. -/
def parse_quiz (quiz_text : PyStr) : List QuizDict :=
  let st := (splitLines (pyStrip quiz_text)).foldl quizStep ⟨[], {}, false⟩
  if st.current.nonEmpty && is_valid_quiz st.current then
    st.questions ++ [st.current]
  else st.questions

/-- Variant of `quizStep` following the words of the specification: a blank
line discards an invalid buffer and always resets the buffer and the
reading-explanation flag.  Only the blank-line branch differs from `quizStep`;
it is used to exhibit where the source deviates from that description. -/
def quizStepSpec (st : QuizState) (rawLine : PyStr) : QuizState :=
  let line := pyStrip rawLine
  if line = [] then
    if st.current.nonEmpty && is_valid_quiz st.current then
      ⟨st.questions ++ [st.current], {}, false⟩
    else ⟨st.questions, {}, false⟩
  else quizStep st rawLine

/-- The quiz parser as described by the specification's blank-line rule
(discard-and-reset); compare `parse_quiz`. -/
def parse_quizSpec (quiz_text : PyStr) : List QuizDict :=
  let st := (splitLines (pyStrip quiz_text)).foldl quizStepSpec ⟨[], {}, false⟩
  if st.current.nonEmpty && is_valid_quiz st.current then
    st.questions ++ [st.current]
  else st.questions

/-! ## The Quiz Scorers

Two scorers exist in the repository: `calculate_quiz_score` in `app.py`
(exact comparison, `int(...)` truncation) and `calculate_quiz_score` in
`utils/quiz_generator.py` (case-insensitive comparison, `round(..., 1)`).
Answer maps (Python `dict[int, str]`) are modelled as `Nat → Option PyStr`. -/

/-- Result record of `app.calculate_quiz_score`. -/
structure ScoreApp where
  score : Nat
  total : Nat
  percentage : Nat
deriving DecidableEq

/-- `calculate_quiz_score` from `app.py`: exact, case-sensitive comparison of
`user_answers.get(i, '')` with `quiz.get('correct_answer', '')`;
`percentage = int(correct / total * 100)` — with float division modelled
exactly, truncation of the non-negative ratio is `Nat` division. -/
def app_calculate_quiz_score (user_answers : Nat → Option PyStr)
    (quiz_dicts : List QuizDict) : ScoreApp :=
  let total := quiz_dicts.length
  let correct := quiz_dicts.enum.foldl
    (fun acc iq =>
      if (user_answers iq.1).getD [] = (iq.2.correct_answer).getD [] then acc + 1
      else acc) 0
  let percentage := if total > 0 then correct * 100 / total else 0
  ⟨correct, total, percentage⟩

/-- Python's `round` ties-to-even on an exact rational. -/
def roundHalfEven (q : ℚ) : ℤ :=
  if q - ⌊q⌋ < 1 / 2 then ⌊q⌋
  else if q - ⌊q⌋ > 1 / 2 then ⌊q⌋ + 1
  else if ⌊q⌋ % 2 = 0 then ⌊q⌋ else ⌊q⌋ + 1

/-- Python `round(x, 1)` modelled exactly: the nearest multiple of `1/10`,
ties to even. -/
def pyRound1 (x : ℚ) : ℚ := (roundHalfEven (x * 10) : ℚ) / 10

/-- Result record of `utils/quiz_generator.calculate_quiz_score`. -/
structure ScoreUtils where
  score : Nat
  total : Nat
  percentage : ℚ
  correct : Nat
  incorrect : Nat
deriving DecidableEq

/-- `calculate_quiz_score` from `utils/quiz_generator.py`: case-insensitive
comparison via `.upper()`, `percentage = round(correct / total * 100, 1)`
(float arithmetic modelled exactly over `ℚ`), and an explicit zero-score
record for an empty quiz list. -/
def utils_calculate_quiz_score (answers : Nat → Option PyStr)
    (quizzes : List QuizDict) : ScoreUtils :=
  if quizzes = [] then ⟨0, 0, 0, 0, 0⟩
  else
    let total := quizzes.length
    let correct : Nat := quizzes.enum.foldl
      (fun acc iq =>
        if pyUpper ((answers iq.1).getD []) = pyUpper ((iq.2.correct_answer).getD [])
        then acc + 1 else acc) 0
    let percentage : ℚ := if total > 0 then (correct : ℚ) / (total : ℚ) * 100 else 0
    ⟨correct, total, pyRound1 percentage, correct, total - correct⟩

/-! ## The option shuffler (`utils/quiz_generator.shuffle_quiz_options`)

`random.shuffle` draws from the process-wide RNG; we model the shuffled list of
the four option texts as an explicit argument, constrained to be a permutation
of the original texts in the theorems. -/

/-- `options.get(key, '')` for the letter-keyed options dict built by
`shuffle_quiz_options`. -/
def optLookup (q : QuizDict) (key : PyStr) : PyStr :=
  if key = ['A'] then q.option_a.getD []
  else if key = ['B'] then q.option_b.getD []
  else if key = ['C'] then q.option_c.getD []
  else if key = ['D'] then q.option_d.getD []
  else []

/-- The relabelling loop
`for letter, text in zip(['A','B','C','D'], option_texts): if text == correct_text: ... break`:
the first letter whose shuffled text equals `correct_text`, if any. -/
def findLetter (correct_text : PyStr) : List (PyStr × PyStr) → Option PyStr
  | [] => none
  | (letter, text) :: rest =>
    if text = correct_text then some letter else findLetter correct_text rest

/-- `utils/quiz_generator.shuffle_quiz_options`, with the result of
`random.shuffle(option_texts)` passed in as `shuffled`. -/
def shuffle_quiz_options (quiz : QuizDict) (shuffled : List PyStr) : QuizDict :=
  let correct_answer := (quiz.correct_answer).getD ['A']
  let correct_text := optLookup quiz correct_answer
  let t0 := shuffled.getD 0 []
  let t1 := shuffled.getD 1 []
  let t2 := shuffled.getD 2 []
  let t3 := shuffled.getD 3 []
  let new_quiz := { quiz with option_a := some t0, option_b := some t1,
                              option_c := some t2, option_d := some t3 }
  match findLetter correct_text [(['A'], t0), (['B'], t1), (['C'], t2), (['D'], t3)] with
  | some letter => { new_quiz with correct_answer := some letter }
  | none => new_quiz

/-! ## The duration parser (`YouTubeService._parse_duration`) -/

/-- The numeric value of a decimal digit string (underscores already
filtered out). -/
def digitsVal (l : List Char) : Int :=
  l.foldl (fun acc c => acc * 10 + ((c.toNat - '0'.toNat : Nat) : Int)) 0

/-- The digits-with-underscores shape accepted by Python `int` after sign
removal: non-empty, no leading, trailing or doubled underscore, all other
characters decimal digits. -/
def pyIntValid (r : PyStr) : Bool :=
  r ≠ [] && r.headI ≠ '_' && r.getLastD '_' ≠ '_' &&
    r.all (fun c => c.isDigit || c = '_') &&
    (r.zip r.tail).all (fun p => !(p.1 = '_' && p.2 = '_'))

/-- Python `int(str)` on an exact decimal string: optional surrounding
whitespace, optional sign, then digits with optional single underscores
between them; `none` models `ValueError`. -/
def pyInt (s : PyStr) : Option Int :=
  let t := pyStrip s
  let sign : Int := if t.headI = '-' then -1 else 1
  let r := if t.headI = '-' ∨ t.headI = '+' then t.tail else t
  if pyIntValid r then some (sign * digitsVal (r.filter (fun c => c ≠ '_')))
  else none

/-- `duration.replace('PT', '')`: remove every (left-to-right, non-overlapping)
occurrence of the two-character substring `PT`. -/
def removePT : PyStr → PyStr
  | [] => []
  | [c] => [c]
  | c :: d :: rest =>
    if c = 'P' ∧ d = 'T' then removePT rest else c :: removePT (d :: rest)

/-- `s.split(sep)[0]`. -/
def seg0 (sep : Char) (s : PyStr) : PyStr := s.takeWhile (fun c => c ≠ sep)

/-- `s.split(sep)[1]`: the segment between the first and second occurrence of
`sep` (everything after the first occurrence when it is unique). -/
def seg1 (sep : Char) (s : PyStr) : PyStr :=
  ((s.dropWhile (fun c => c ≠ sep)).drop 1).takeWhile (fun c => c ≠ sep)

/-- `YouTubeService._parse_duration`: ISO-8601-style duration to seconds; any
exception inside the `try` block yields `0` for the whole duration. -/
def parse_duration (duration : PyStr) : Int :=
  let d0 := removePT duration
  let step1 : Option (Int × PyStr) :=
    if d0.contains 'H' then (pyInt (seg0 'H' d0)).map (fun h => (h, seg1 'H' d0))
    else some (0, d0)
  match step1 with
  | none => 0
  | some (hours, d1) =>
    let step2 : Option (Int × PyStr) :=
      if d1.contains 'M' then (pyInt (seg0 'M' d1)).map (fun m => (m, seg1 'M' d1))
      else some (0, d1)
    match step2 with
    | none => 0
    | some (minutes, d2) =>
      let step3 : Option Int :=
        -- `seconds = int(duration.replace('S', ''))`: all of the remainder
        -- with every 'S' removed, not just the prefix before 'S'
        if d2.contains 'S' then pyInt (d2.filter (fun c => c ≠ 'S'))
        else some 0
      match step3 with
      | none => 0
      | some seconds => hours * 3600 + minutes * 60 + seconds

/-! ## The Video Ranker (`YouTubeService._select_best_video`)

A candidate from the YouTube API is a nested dict; each field below is the
result of the corresponding access in the source's `try` block, with `none`
modelling the exception (missing key or non-numeric count) that makes the
candidate be skipped.  Scores are floats in the source, modelled exactly
over `ℚ`. -/

/-- One element of the `videos` list handed to `_select_best_video`. -/
structure VideoItem where
  /-- `video['id']` (only carried through to the result). -/
  id : PyStr
  /-- `int(video['statistics'].get('viewCount', 0))`. -/
  viewCount : Option Int
  /-- `int(video['statistics'].get('likeCount', 0))`. -/
  likeCount : Option Int
  /-- `video['snippet']['title']`. -/
  title : Option PyStr
  /-- `video['snippet']['description']`. -/
  description : Option PyStr
  /-- `video['contentDetails'].get('duration', '')`. -/
  duration : Option PyStr
deriving DecidableEq

/-- `query.split()` / the regex-free whitespace tokenizer of Python `str.split`
with no argument: maximal runs of non-whitespace characters. -/
def wsTokens : PyStr → List PyStr
  | [] => []
  | c :: rest =>
    if pyIsSpace c then wsTokens rest
    else
      ((c :: rest).takeWhile (fun x => !pyIsSpace x)) ::
        wsTokens (rest.dropWhile (fun x => !pyIsSpace x))
termination_by s => s.length
decreasing_by
  · simp only [List.length_cons]; omega
  · simp only [List.length_cons]
    exact Nat.lt_succ_of_le (List.dropWhile_suffix _).sublist.length_le

/-- Python `needle in hay` on strings: occurrence as a contiguous substring. -/
def containsSub (needle : PyStr) : PyStr → Bool
  | [] => needle.isPrefixOf []
  | c :: t => needle.isPrefixOf (c :: t) || containsSub needle t

/-- The fixed educational keyword list of `_select_best_video`. -/
def educationalKeywords : List PyStr :=
  [ "tutorial".toList, "guide".toList, "course".toList, "explained".toList,
    "learn".toList, "introduction".toList, "beginner".toList, "complete".toList ]

/-- The body of the scoring `try` block of `_select_best_video` for one
candidate: `none` when any field access raises (the candidate is skipped). -/
def scoreVideo (video : VideoItem) (search_query : PyStr) : Option ℚ := do
  let views ← video.viewCount
  let likes ← video.likeCount
  let title := pyLower (← video.title)
  let _description := pyLower (← video.description)
  let s1 : ℚ := if views > 0 then min ((views : ℚ) / 100000) 50 else 0
  let s2 : ℚ := if views > 0 then (likes : ℚ) / (views : ℚ) * 100 else 0
  let query_words := wsTokens (pyLower search_query)
  let title_matches := (query_words.filter (fun w => containsSub w title)).length
  let s3 : ℚ := title_matches * 10
  let edu_matches := (educationalKeywords.filter (fun k => containsSub k title)).length
  let s4 : ℚ := edu_matches * 5
  let dur ← video.duration
  let duration_seconds := parse_duration dur
  let s5 : ℚ := if duration_seconds < 120 ∨ duration_seconds > 3600 then -10 else 0
  pure (s1 + s2 + s3 + s4 + s5)

/-- Stable insertion for a descending sort: an element moves left past exactly
the elements of strictly smaller score, so elements of equal score keep their
original relative order — the stability guarantee of Python `list.sort`. -/
def insertDesc (a : VideoItem × ℚ) : List (VideoItem × ℚ) → List (VideoItem × ℚ)
  | [] => [a]
  | b :: l => if a.2 < b.2 then b :: insertDesc a l else a :: b :: l

/-- `scored_videos.sort(key=lambda x: x['score'], reverse=True)` as a stable
descending insertion sort. -/
def sortDesc : List (VideoItem × ℚ) → List (VideoItem × ℚ)
  | [] => []
  | a :: l => insertDesc a (sortDesc l)

/-- `YouTubeService._select_best_video`. -/
def select_best_video (videos : List VideoItem) (search_query : PyStr) :
    Option VideoItem :=
  if videos = [] then none
  else
    let scored := videos.foldl
      (fun acc video =>
        match scoreVideo video search_query with
        | some s => acc ++ [(video, s)]
        | none => acc)
      ([] : List (VideoItem × ℚ))
    match sortDesc scored with
    | [] => none
    | p :: _ => some p.1

/-- The first element of maximal score of a scored list: a later element
replaces the current best only when its score is strictly larger.  This is the
selection rule stated by the specification (first-max, ties by input order). -/
def firstMax : List (VideoItem × ℚ) → Option (VideoItem × ℚ)
  | [] => none
  | a :: l =>
    match firstMax l with
    | none => some a
    | some b => some (if b.2 > a.2 then b else a)

/-! ## Specification-side definitions used to state the claims -/

/-- The run of the quiz-parser loop over a list of (raw) lines. -/
def quizRun (lines : List PyStr) : QuizState :=
  lines.foldl quizStep ⟨[], {}, false⟩

/-- The effect the source's blank-line branch actually has on the loop state:
flush and reset when the buffer is non-empty and valid, otherwise leave the
state (buffer and reading-explanation flag included) unchanged. -/
def flushIfValid (st : QuizState) : QuizState :=
  if st.current.nonEmpty && is_valid_quiz st.current then
    ⟨st.questions ++ [st.current], {}, false⟩
  else st

/-- The number of indices scored as correct by the case-insensitive rule of
`utils/quiz_generator.calculate_quiz_score` (absent answers read as `''`). -/
def countCaseInsensitive (answers : Nat → Option PyStr) (quizzes : List QuizDict) : Nat :=
  quizzes.enum.countP
    (fun iq => decide (pyUpper ((answers iq.1).getD []) = pyUpper ((iq.2.correct_answer).getD [])))

/-- The number of indices scored as correct by the exact comparison of
`app.calculate_quiz_score` (absent answers read as `''`). -/
def countCaseSensitive (answers : Nat → Option PyStr) (quizzes : List QuizDict) : Nat :=
  quizzes.enum.countP
    (fun iq => decide ((answers iq.1).getD [] = (iq.2.correct_answer).getD []))

/-- Decimal digits of a natural number (used by the outline serializer). -/
def natDigits (n : Nat) : List Char :=
  if n < 10 then [Nat.digitChar n]
  else natDigits (n / 10) ++ [Nat.digitChar (n % 10)]
termination_by n
decreasing_by exact Nat.div_lt_self (by omega) (by omega)

/-- The serialized module header `Module k: <title>` of the round-trip claim. -/
def moduleLine (k : Nat) (title : PyStr) : PyStr :=
  "Module ".toList ++ natDigits k ++ ':' :: ' ' :: title

/-- The serialized subtopic line `- <subtopic>` of the round-trip claim. -/
def subLine (s : PyStr) : PyStr := '-' :: ' ' :: s

/-- The lines of the serialized form of an outline, modules numbered from `k`. -/
def serializeBlocks : Nat → OutlineDict → List PyStr
  | _, [] => []
  | k, (t, subs) :: rest =>
    (moduleLine k t :: subs.map subLine) ++ serializeBlocks (k + 1) rest

/-- Serialization of a `CourseOutline` to the textual format of the round-trip
claim: one `Module k: <title>` line per module in order, followed by one
`- <subtopic>` line per subtopic in order. -/
def serialize_outline (d : OutlineDict) : PyStr :=
  joinLines (serializeBlocks 1 d)

/-- Structural facts about a single parsed outline entry: title and subtopics
are stripped and newline-free, subtopics are non-empty, and an empty (falsy)
title has no subtopics. -/
def OutlineEntryOk (p : PyStr × List PyStr) : Prop :=
  pyStrip p.1 = p.1 ∧ '\n' ∉ p.1 ∧ (p.1 = [] → p.2 = []) ∧
    ∀ s ∈ p.2, pyStrip s = s ∧ s ≠ [] ∧ '\n' ∉ s

/-- Structural facts about a parsed outline: every entry is `OutlineEntryOk`
and module titles are pairwise distinct. -/
def OutlineOk (d : OutlineDict) : Prop :=
  (∀ p ∈ d, OutlineEntryOk p) ∧ (d.map Prod.fst).Nodup

/-! # Theorems -/

/-! ## Generic helper lemmas -/

theorem foldl_count_sens (answers : Nat → Option PyStr) (l : List (Nat × QuizDict)) (n : Nat) :
    l.foldl (fun acc iq =>
        if (answers iq.1).getD [] = (iq.2.correct_answer).getD [] then acc + 1 else acc) n
      = n + l.countP (fun iq => decide ((answers iq.1).getD [] = (iq.2.correct_answer).getD [])) := by
  induction l generalizing n with
  | nil => simp
  | cons a t ih =>
    rw [List.foldl_cons, ih, List.countP_cons]
    by_cases h : (answers a.1).getD [] = (a.2.correct_answer).getD [] <;> (simp [h]; try omega)

theorem foldl_count_insens (answers : Nat → Option PyStr) (l : List (Nat × QuizDict)) (n : Nat) :
    l.foldl (fun acc iq =>
        if pyUpper ((answers iq.1).getD []) = pyUpper ((iq.2.correct_answer).getD [])
        then acc + 1 else acc) n
      = n + l.countP (fun iq =>
          decide (pyUpper ((answers iq.1).getD []) = pyUpper ((iq.2.correct_answer).getD []))) := by
  induction l generalizing n with
  | nil => simp
  | cons a t ih =>
    rw [List.foldl_cons, ih, List.countP_cons]
    by_cases h : pyUpper ((answers a.1).getD []) = pyUpper ((a.2.correct_answer).getD []) <;>
      (simp [h]; try omega)

/-! ## C1: blank-line handling in the Quiz Parser -/

/-- C1, counterexample.  The claim states that a blank line discards an invalid
buffer and resets it, so that no field accumulated before a blank line can end
up in a record completed after it.  On the input below the question
`What is X?` sits before a blank line, the buffer is invalid (no options yet)
at the blank line, yet the single record produced at the end still carries that
question: the source resets the buffer only when it flushes a *valid* one.
`parse_quizSpec`, which follows the claim's words, instead produces no record. -/
theorem quiz_blank_line_counterexample :
    parse_quiz (("What is X?\n\nA) 1\nB) 2\nC) 3\nD) 4\nCorrect Answer: A").toList)
      = [{ question := some ("What is X?".toList),
           option_a := some ("1".toList), option_b := some ("2".toList),
           option_c := some ("3".toList), option_d := some ("4".toList),
           correct_answer := some ("C".toList) }] ∧
    parse_quizSpec (("What is X?\n\nA) 1\nB) 2\nC) 3\nD) 4\nCorrect Answer: A").toList)
      = [] := by
  constructor <;> decide

/-- C1, amended.  For every run of the quiz-parser loop, a blank line flushes
the accumulated buffer as a completed record if and only if the buffer is
non-empty and valid, and the buffer and reading-explanation flag are reset
*only in that case*; an invalid buffer (with the flag) is carried unchanged
past the blank line into the rest of the scan. -/
theorem quiz_blank_line_amended (L M : List PyStr) (w : PyStr) (hw : pyStrip w = []) :
    quizRun (L ++ w :: M) = M.foldl quizStep (flushIfValid (quizRun L)) := by
  unfold quizRun
  rw [List.foldl_append, List.foldl_cons]
  have hstep : quizStep (List.foldl quizStep ⟨[], {}, false⟩ L) w
      = flushIfValid (List.foldl quizStep ⟨[], {}, false⟩ L) := by
    simp [quizStep, hw, flushIfValid]
  rw [hstep]

/-- Witness for `quiz_blank_line_amended` at a concrete input. -/
theorem quiz_blank_line_amended_witness :
    quizRun ([("Q".toList)] ++ [' ', '\t'] :: [("R".toList)])
      = List.foldl quizStep (flushIfValid (quizRun [("Q".toList)])) [("R".toList)] :=
  quiz_blank_line_amended [("Q".toList)] [("R".toList)] [' ', '\t'] (by decide)

/-! ## C2: extraction of the correct-answer letter -/

/-- C2.  The claim says a line `Correct Answer: X` with `X ∈ {A,B,C,D}` sets
the correct-answer field to `X`.  The source instead re-scans the whole line
with the case-sensitive search `re.search(r'([A-D])', line)`, whose first hit
on `Correct Answer: B` is the `C` of `Correct`; the parsed record therefore
carries correct answer `C`, not `B`.  (The first regex of that branch,
`^Correct Answer:?\s*([A-D])` with `re.IGNORECASE`, captures the intended
letter in group 1, but the code discards that match object.) -/
theorem correct_answer_letter_bug :
    firstUpperAD (("Correct Answer: B").toList) = some 'C' ∧
    parse_quiz (("Q7\nA) 1\nB) 2\nC) 3\nD) 4\nCorrect Answer: B").toList)
      = [{ question := some ("Q7".toList),
           option_a := some ("1".toList), option_b := some ("2".toList),
           option_c := some ("3".toList), option_d := some ("4".toList),
           correct_answer := some ("C".toList) }] := by
  constructor <;> decide

/-! ## Characterizations of the two scorers (shared helpers) -/

theorem app_score_fields (answers : Nat → Option PyStr) (quizzes : List QuizDict) :
    app_calculate_quiz_score answers quizzes
      = ⟨countCaseSensitive answers quizzes, quizzes.length,
         if quizzes.length > 0 then countCaseSensitive answers quizzes * 100 / quizzes.length
         else 0⟩ := by
  simp only [app_calculate_quiz_score, countCaseSensitive]
  rw [foldl_count_sens]
  simp

theorem utils_score_fields (answers : Nat → Option PyStr) (quizzes : List QuizDict)
    (h : quizzes ≠ []) :
    utils_calculate_quiz_score answers quizzes
      = ⟨countCaseInsensitive answers quizzes, quizzes.length,
         pyRound1 ((countCaseInsensitive answers quizzes : ℚ) / (quizzes.length : ℚ) * 100),
         countCaseInsensitive answers quizzes,
         quizzes.length - countCaseInsensitive answers quizzes⟩ := by
  simp only [utils_calculate_quiz_score, countCaseInsensitive, if_neg h]
  rw [foldl_count_insens]
  have hlen : 0 < quizzes.length := List.length_pos.mpr h
  simp [hlen]

theorem utils_score_nil (answers : Nat → Option PyStr) :
    utils_calculate_quiz_score answers [] = ⟨0, 0, 0, 0, 0⟩ := rfl

/-! ## C3: the percentage computation of the Quiz Scorers -/

/-- C3, counterexample.  With 2 of 3 answers correct the claimed percentage is
`round(2/3*100) = 67`; the `app.py` scorer truncates to `66` and the
`utils/quiz_generator.py` scorer rounds to one decimal, `66.7`. -/
theorem quiz_percentage_counterexample :
    (app_calculate_quiz_score
        (fun i => if i = 2 then some ("B".toList) else some ("A".toList))
        (List.replicate 3 { correct_answer := some ("A".toList) })).percentage = 66 ∧
    (utils_calculate_quiz_score
        (fun i => if i = 2 then some ("B".toList) else some ("A".toList))
        (List.replicate 3 { correct_answer := some ("A".toList) })).percentage = 667 / 10 ∧
    round ((2 : ℚ) / 3 * 100) = 67 := by
  refine ⟨by decide, ?_, ?_⟩
  · rw [utils_score_fields _ _ (by decide)]
    have hc : countCaseInsensitive
        (fun i => if i = 2 then some ("B".toList) else some ("A".toList))
        (List.replicate 3 { correct_answer := some ("A".toList) }) = 2 := by decide
    rw [hc]
    show pyRound1 ((2 : ℚ) / 3 * 100) = 667 / 10
    have h23 : ((2 : ℚ) / 3 * 100) * 10 = 2000 / 3 := by norm_num
    have hfloor : ⌊(2000 : ℚ) / 3⌋ = 666 := by
      rw [Int.floor_eq_iff]
      norm_num
    unfold pyRound1 roundHalfEven
    rw [h23, hfloor]
    norm_num
  · rw [round_eq]
    have h4 : (2 : ℚ) / 3 * 100 + 1 / 2 = 403 / 6 := by norm_num
    rw [h4, Int.floor_eq_iff]
    norm_num

/-- C3, amended.  For every answer map and quiz list: the `app.py` scorer's
percentage is the *truncation* `⌊correct / total * 100⌋` (exact-arithmetic
model of `int(...)`), the `utils` scorer's percentage is `correct / total *
100` rounded to one decimal (ties to even), and both report `0` for an empty
quiz list rather than raising a division error.  Neither computes the claimed
integer `round(correct / total * 100)`. -/
theorem quiz_percentage_amended (answers : Nat → Option PyStr) (quizzes : List QuizDict) :
    (app_calculate_quiz_score answers quizzes).percentage
      = (if quizzes.length = 0 then 0
         else ⌊(countCaseSensitive answers quizzes : ℚ) / (quizzes.length : ℚ) * 100⌋₊) ∧
    (utils_calculate_quiz_score answers quizzes).percentage
      = (if quizzes.length = 0 then 0
         else pyRound1 ((countCaseInsensitive answers quizzes : ℚ) / (quizzes.length : ℚ) * 100)) := by
  constructor
  · rw [app_score_fields]
    rcases Nat.eq_zero_or_pos quizzes.length with h | h
    · simp [h]
    · rw [if_pos h, if_neg (by omega)]
      have hcast : (countCaseSensitive answers quizzes : ℚ) / (quizzes.length : ℚ) * 100
          = ((countCaseSensitive answers quizzes * 100 : ℕ) : ℚ) / (quizzes.length : ℚ) := by
        push_cast
        ring
      rw [hcast, Nat.floor_div_nat, Nat.floor_natCast]
  · rcases eq_or_ne quizzes [] with h | h
    · subst h
      rw [utils_score_nil]
      simp
    · rw [utils_score_fields _ _ h, if_neg (by simp [h])]

/-! ## C4: the per-question correctness rule of the Quiz Scorers -/

/-- C4, counterexample.  The claim says the Quiz Scorer compares answers
case-insensitively; the scorer in `app.py` (one of the claim's two sources)
compares exactly, so the lower-case answer `a` is not counted against the
correct label `A`, while the `utils/quiz_generator.py` scorer counts it. -/
theorem quiz_count_counterexample :
    (app_calculate_quiz_score (fun _ => some ("a".toList))
        [{ correct_answer := some ("A".toList) }]).score = 0 ∧
    (utils_calculate_quiz_score (fun _ => some ("a".toList))
        [{ correct_answer := some ("A".toList) }]).score = 1 := by
  constructor
  · decide
  · rw [utils_score_fields _ _ (by decide)]
    decide

/-- C4, amended.  For every answer map and quiz list, the
`utils/quiz_generator.py` scorer counts question `i` as correct exactly when
`answers.get(i, '')` (absent index → empty string) compares case-insensitively
equal to the quiz's correct-answer label, whereas the `app.py` scorer counts it
exactly when the two compare equal case-*sensitively*; each returned correct
count equals the number of indices satisfying its respective rule. -/
theorem quiz_count_amended (answers : Nat → Option PyStr) (quizzes : List QuizDict) :
    (utils_calculate_quiz_score answers quizzes).score = countCaseInsensitive answers quizzes ∧
    (app_calculate_quiz_score answers quizzes).score = countCaseSensitive answers quizzes := by
  constructor
  · rcases eq_or_ne quizzes [] with h | h
    · subst h
      rw [utils_score_nil]
      rfl
    · rw [utils_score_fields _ _ h]
  · rw [app_score_fields]

/-! ## String lemmas for the outline parser -/

theorem pyRStrip_reverse_eq (l : PyStr) :
    (pyRStrip l).reverse = l.reverse.dropWhile pyIsSpace := by
  simp [pyRStrip, List.rdropWhile]

theorem pyRStrip_cons (c : Char) (l : PyStr) (h : pyRStrip l ≠ []) :
    pyRStrip (c :: l) = c :: pyRStrip l := by
  have hrev : l.reverse.dropWhile pyIsSpace ≠ [] := by
    intro hx
    apply h
    have := pyRStrip_reverse_eq l
    rw [hx] at this
    simpa using this
  unfold pyRStrip List.rdropWhile
  rw [List.reverse_cons, List.dropWhile_append]
  simp only [List.isEmpty_iff, if_neg hrev]
  rw [List.reverse_append]
  simp [pyRStrip, List.rdropWhile]

theorem pyRStrip_append (A B : PyStr) (h : pyRStrip B ≠ []) :
    pyRStrip (A ++ B) = A ++ pyRStrip B := by
  induction A with
  | nil => simp
  | cons a A ih =>
    have hne : pyRStrip (A ++ B) ≠ [] := by
      rw [ih]
      intro hx
      exact h (by simpa using (List.append_eq_nil.mp hx).2)
    rw [List.cons_append, pyRStrip_cons a _ hne, ih]
    rfl

theorem pyRStrip_cons_of_nil (c : Char) (l : PyStr) (h : pyRStrip l = []) :
    pyRStrip (c :: l) = if pyIsSpace c then [] else [c] := by
  have hrev : l.reverse.dropWhile pyIsSpace = [] := by
    have := pyRStrip_reverse_eq l
    rw [h] at this
    simpa using this.symm
  unfold pyRStrip List.rdropWhile
  rw [List.reverse_cons, List.dropWhile_append]
  simp only [hrev, List.isEmpty_nil, if_pos]
  by_cases hc : pyIsSpace c <;> simp [hc, List.dropWhile_cons]

theorem pyLStrip_cons_pos (c : Char) (t : PyStr) (hc : pyIsSpace c = true) :
    pyLStrip (c :: t) = pyLStrip t := by
  unfold pyLStrip
  exact List.dropWhile_cons_of_pos hc

theorem pyLStrip_cons_neg (c : Char) (t : PyStr) (hc : ¬ pyIsSpace c = true) :
    pyLStrip (c :: t) = c :: t := by
  unfold pyLStrip
  exact List.dropWhile_cons_of_neg hc

theorem lstrip_rstrip_comm (l : PyStr) :
    pyLStrip (pyRStrip l) = pyRStrip (pyLStrip l) := by
  induction l with
  | nil => rfl
  | cons c t ih =>
    by_cases hc : pyIsSpace c
    · rcases eq_or_ne (pyRStrip t) [] with hrt | hrt
      · have hall : ∀ x ∈ t, pyIsSpace x := by
          simpa [pyRStrip] using (List.rdropWhile_eq_nil_iff).mp hrt
        have h1 : pyRStrip (c :: t) = [] := by
          apply (List.rdropWhile_eq_nil_iff).mpr
          intro x hx
          rcases List.mem_cons.mp hx with rfl | hx
          · exact hc
          · exact hall x hx
        have h2 : pyLStrip t = [] := by
          apply List.dropWhile_eq_nil_iff.mpr
          intro x hx
          exact hall x hx
        rw [h1, pyLStrip_cons_pos c t hc, h2]
        rfl
      · rw [pyRStrip_cons c t hrt, pyLStrip_cons_pos c _ hc, pyLStrip_cons_pos c t hc]
        exact ih
    · rcases eq_or_ne (pyRStrip t) [] with hrt | hrt
      · rw [pyRStrip_cons_of_nil c t hrt, if_neg hc, pyLStrip_cons_neg c [] hc,
          pyLStrip_cons_neg c t hc, pyRStrip_cons_of_nil c t hrt, if_neg hc]
      · rw [pyRStrip_cons c t hrt, pyLStrip_cons_neg c _ hc, pyLStrip_cons_neg c t hc,
          pyRStrip_cons c t hrt]

theorem pyStrip_rstrip (l : PyStr) : pyStrip (pyRStrip l) = pyStrip l := by
  unfold pyStrip
  rw [lstrip_rstrip_comm]
  show List.rdropWhile pyIsSpace (List.rdropWhile pyIsSpace (pyLStrip l)) = _
  rw [List.rdropWhile_idempotent]
  rfl

theorem pyStrip_idem (l : PyStr) : pyStrip (pyStrip l) = pyStrip l := by
  show pyStrip (pyRStrip (pyLStrip l)) = _
  rw [pyStrip_rstrip]
  unfold pyStrip pyLStrip
  rw [List.dropWhile_idempotent]

theorem pyStrip_parts (t : PyStr) (h : pyStrip t = t) :
    pyLStrip t = t ∧ pyRStrip t = t := by
  have hsuf : pyLStrip t <:+ t := List.dropWhile_suffix pyIsSpace
  have hpre : pyRStrip (pyLStrip t) <+: pyLStrip t := List.rdropWhile_prefix _ _
  have hlen : t.length ≤ (pyLStrip t).length := by
    have := hpre.sublist.length_le
    rw [show pyRStrip (pyLStrip t) = pyStrip t from rfl, h] at this
    exact this
  have h1 : pyLStrip t = t := hsuf.eq_of_length (Nat.le_antisymm hsuf.sublist.length_le hlen)
  refine ⟨h1, ?_⟩
  have := h
  unfold pyStrip at this
  rwa [h1] at this

theorem pyStrip_cons_space (t : PyStr) (h : pyStrip t = t) : pyStrip (' ' :: t) = t := by
  obtain ⟨h1, h2⟩ := pyStrip_parts t h
  unfold pyStrip pyLStrip
  rw [List.dropWhile_cons_of_pos (by decide)]
  rw [show t.dropWhile pyIsSpace = pyLStrip t from rfl, h1]
  exact h2

theorem pyStrip_cons_of_not (c : Char) (t : PyStr) (hc : ¬ pyIsSpace c = true) :
    pyStrip (c :: t) = pyRStrip (c :: t) := by
  unfold pyStrip pyLStrip
  rw [List.dropWhile_cons_of_neg hc]

/-! ## splitLines / joinLines lemmas -/

theorem splitLines_ne_nil (s : PyStr) : splitLines s ≠ [] := by
  induction s with
  | nil => simp [splitLines]
  | cons c t ih =>
    by_cases hc : c = '\n' <;> simp [splitLines, hc]

theorem splitLines_cons_nl (s : PyStr) : splitLines ('\n' :: s) = [] :: splitLines s := by
  simp [splitLines]

theorem splitLines_append (l s : PyStr) (hl : '\n' ∉ l) :
    splitLines (l ++ s) = (l ++ (splitLines s).headI) :: (splitLines s).tail := by
  induction l with
  | nil =>
    simp only [List.nil_append]
    rcases hsp : splitLines s with _ | ⟨a, r⟩
    · exact absurd hsp (splitLines_ne_nil s)
    · simp
  | cons c l ih =>
    have hc : ¬ c = '\n' := by
      intro hx
      exact hl (by simp [hx])
    have hl' : '\n' ∉ l := fun hx => hl (by simp [hx])
    have hstep : splitLines (c :: (l ++ s))
        = (c :: (splitLines (l ++ s)).headI) :: (splitLines (l ++ s)).tail := by
      simp [splitLines, hc]
    rw [List.cons_append, hstep, ih hl']
    simp

theorem splitLines_of_no_nl (l : PyStr) (hl : '\n' ∉ l) : splitLines l = [l] := by
  have := splitLines_append l [] hl
  simpa [splitLines] using this

theorem splitLines_joinLines (L : List PyStr) (hne : L ≠ [])
    (hnl : ∀ l ∈ L, '\n' ∉ l) : splitLines (joinLines L) = L := by
  induction L with
  | nil => exact absurd rfl hne
  | cons l L ih =>
    rcases eq_or_ne L [] with rfl | hL
    · exact splitLines_of_no_nl l (hnl l (by simp))
    · have hjoin : joinLines (l :: L) = l ++ '\n' :: joinLines L := by
        rcases L with _ | ⟨a, r⟩
        · exact absurd rfl hL
        · rfl
      rw [hjoin, splitLines_append l _ (hnl l (by simp)), splitLines_cons_nl,
        ih hL (fun x hx => hnl x (by simp [hx]))]
      simp

theorem mem_splitLines_no_nl (s : PyStr) : ∀ l ∈ splitLines s, '\n' ∉ l := by
  induction s with
  | nil =>
    intro l hl
    simp [splitLines] at hl
    simp [hl]
  | cons c t ih =>
    intro l hl
    by_cases hc : c = '\n'
    · subst hc
      rw [splitLines_cons_nl] at hl
      rcases List.mem_cons.mp hl with rfl | hl
      · simp
      · exact ih l hl
    · simp only [splitLines, if_neg hc] at hl
      rcases List.mem_cons.mp hl with rfl | hl
      · intro hmem
        rcases List.mem_cons.mp hmem with rfl | hmem
        · exact hc rfl
        · have hmemhead : (splitLines t).headI ∈ splitLines t := by
            rcases hsp : splitLines t with _ | ⟨a, r⟩
            · exact absurd hsp (splitLines_ne_nil t)
            · simp
          exact ih _ hmemhead hmem
      · exact ih l (List.mem_of_mem_tail hl)

/-! ## Digit and serialized-line lemmas -/

theorem digitChar_isDigit (m : Nat) (h : m < 10) : (Nat.digitChar m).isDigit = true := by
  interval_cases m <;> decide

theorem natDigits_all_digit (n : Nat) : ∀ c ∈ natDigits n, c.isDigit = true := by
  induction n using Nat.strong_induction_on with
  | _ n ih =>
    intro c hc
    rw [natDigits] at hc
    by_cases h : n < 10
    · rw [if_pos h] at hc
      rcases List.mem_singleton.mp hc with rfl
      exact digitChar_isDigit n h
    · rw [if_neg h] at hc
      rcases List.mem_append.mp hc with hc | hc
      · exact ih (n / 10) (Nat.div_lt_self (by omega) (by omega)) c hc
      · rcases List.mem_singleton.mp hc with rfl
        exact digitChar_isDigit _ (Nat.mod_lt n (by omega))

theorem isDigit_ne (c : Char) (h : c.isDigit = true) (d : Char) (hd : d.isDigit = false) :
    c ≠ d := by
  intro he
  rw [he] at h
  rw [h] at hd
  exact absurd hd (by decide)

theorem isDigit_not_space (c : Char) (h : c.isDigit = true) : pyIsSpace c = false := by
  rcases hc : pyIsSpace c
  · rfl
  · exfalso
    simp only [pyIsSpace, Bool.or_eq_true, decide_eq_true_eq] at hc
    rcases hc with ((((rfl | rfl) | rfl) | rfl) | rfl) | rfl <;> exact absurd h (by decide)

theorem pyRStrip_concat_pos (l : PyStr) (c : Char) (h : pyIsSpace c = true) :
    pyRStrip (l ++ [c]) = pyRStrip l :=
  List.rdropWhile_concat_pos _ _ _ h

theorem pyRStrip_concat_neg (l : PyStr) (c : Char) (h : ¬ pyIsSpace c = true) :
    pyRStrip (l ++ [c]) = l ++ [c] :=
  List.rdropWhile_concat_neg _ _ _ h

theorem moduleLine_eq_cons (k : Nat) (t : PyStr) :
    moduleLine k t = 'M' :: ("odule ".toList ++ natDigits k ++ ':' :: ' ' :: t) := rfl

theorem moduleLine_eq_append (k : Nat) (t : PyStr) :
    moduleLine k t = ("Module ".toList ++ natDigits k ++ [':', ' ']) ++ t := by
  simp [moduleLine]

theorem pyStrip_moduleLine_ne (k : Nat) (t : PyStr) (ht : pyStrip t = t) (htne : t ≠ []) :
    pyStrip (moduleLine k t) = moduleLine k t := by
  have hr : pyRStrip t = t := (pyStrip_parts t ht).2
  rw [moduleLine_eq_cons, pyStrip_cons_of_not _ _ (by decide), ← moduleLine_eq_cons,
    moduleLine_eq_append, pyRStrip_append _ _ (by rw [hr]; exact htne), hr,
    ← moduleLine_eq_append]

theorem pyStrip_moduleLine_nil (k : Nat) :
    pyStrip (moduleLine k []) = "Module ".toList ++ natDigits k ++ [':'] := by
  have hshape : moduleLine k [] = (("Module ".toList ++ natDigits k) ++ [':']) ++ [' '] := by
    simp [moduleLine]
  rw [moduleLine_eq_cons, pyStrip_cons_of_not _ _ (by decide), ← moduleLine_eq_cons, hshape,
    pyRStrip_concat_pos _ _ (by decide), pyRStrip_concat_neg _ _ (by decide),
    List.append_assoc]

theorem pyStrip_subLine (s : PyStr) (hs : pyStrip s = s) (hsne : s ≠ []) :
    pyStrip (subLine s) = subLine s := by
  have hr : pyRStrip s = s := (pyStrip_parts s hs).2
  have h1 : pyRStrip (' ' :: s) = ' ' :: s := by
    rw [pyRStrip_cons _ _ (by rw [hr]; exact hsne), hr]
  rw [subLine, pyStrip_cons_of_not _ _ (by decide),
    pyRStrip_cons _ _ (by rw [h1]; simp), h1]

/-! ## Evaluating `outlineStep` on serialized lines -/

theorem kwModule_prefix_append (X : PyStr) :
    kwModule.isPrefixOf ("Module ".toList ++ X) = true := by
  rw [List.isPrefixOf_iff_prefix]
  rw [show ("Module ".toList : PyStr) = kwModule ++ [' '] from rfl, List.append_assoc]
  exact List.prefix_append _ _

theorem headPrefix_no_colon (k : Nat) :
    ∀ c ∈ "Module ".toList ++ natDigits k, decide (c ≠ ':') = true := by
  intro c hc
  rcases List.mem_append.mp hc with hc | hc
  · rw [show ("Module ".toList : PyStr) = ['M', 'o', 'd', 'u', 'l', 'e', ' '] from rfl] at hc
    simp only [List.mem_cons, List.not_mem_nil, or_false] at hc
    rcases hc with rfl | rfl | rfl | rfl | rfl | rfl | rfl
    · decide
    · decide
    · decide
    · decide
    · decide
    · decide
    · decide
  · simp only [decide_eq_true_eq]
    exact isDigit_ne c (natDigits_all_digit k c hc) ':' (by decide)

theorem splitFirst_colon (A B : PyStr) (hA : ∀ c ∈ A, decide (c ≠ ':') = true) :
    splitFirst ':' (A ++ ':' :: B) = (A, B) := by
  unfold splitFirst
  rw [List.takeWhile_append_of_pos hA, List.dropWhile_append_of_pos hA,
    List.takeWhile_cons_of_neg (by simp), List.dropWhile_cons_of_neg (by simp)]
  simp

theorem kwModule_prefix_left (A B : PyStr) :
    kwModule.isPrefixOf (("Module ".toList ++ A) ++ B) = true := by
  rw [List.append_assoc]
  exact kwModule_prefix_append _

theorem outlineStep_moduleLine (M : OutlineDict) (cur : Option PyStr) (k : Nat) (t : PyStr)
    (ht : pyStrip t = t) :
    outlineStep (M, cur) (moduleLine k t) = (dictSet M t [], some t) := by
  rcases eq_or_ne t [] with rfl | htne
  · have hline : pyStrip (moduleLine k []) = ("Module ".toList ++ natDigits k) ++ ':' :: [] := by
      rw [pyStrip_moduleLine_nil k, List.append_assoc]
    simp only [outlineStep, hline]
    rw [if_neg (by simp), if_pos (kwModule_prefix_left _ _),
      if_pos (List.elem_eq_true_of_mem (by simp)),
      splitFirst_colon _ _ (headPrefix_no_colon k)]
    have h2 : pyStrip (("Module ".toList ++ natDigits k, ([] : PyStr)).2) = [] := rfl
    rw [h2]
  · have hline : pyStrip (moduleLine k t)
        = ("Module ".toList ++ natDigits k) ++ ':' :: (' ' :: t) := by
      rw [pyStrip_moduleLine_ne k t ht htne, moduleLine_eq_append]
      simp
    simp only [outlineStep, hline]
    rw [if_neg (by simp), if_pos (kwModule_prefix_left _ _),
      if_pos (List.elem_eq_true_of_mem (by simp)),
      splitFirst_colon _ _ (headPrefix_no_colon k)]
    have hsnd : pyStrip (("Module ".toList ++ natDigits k, ' ' :: t).2) = t :=
      pyStrip_cons_space t ht
    rw [hsnd]

theorem kwModule_not_prefix_dash (X : PyStr) :
    kwModule.isPrefixOf ('-' :: X) = false := rfl

theorem outlineStep_subLine (M : OutlineDict) (m s : PyStr)
    (hs : pyStrip s = s) (hsne : s ≠ []) (hm : m ≠ []) :
    outlineStep (M, some m) (subLine s) = (dictAppend M m s, some m) := by
  have hline : pyStrip (subLine s) = '-' :: ' ' :: s := pyStrip_subLine s hs hsne
  have hnp : ¬ (kwModule.isPrefixOf (('-' : Char) :: ' ' :: s) = true) := by
    rw [kwModule_not_prefix_dash]
    decide
  simp only [outlineStep, hline]
  rw [if_neg (by simp), if_neg hnp, if_pos ⟨rfl, by simp, hm⟩]
  have hsub : pyStrip ((('-' : Char) :: ' ' :: s).drop 1) = s := by
    rw [List.drop_one]
    show pyStrip (' ' :: s) = s
    exact pyStrip_cons_space s hs
  rw [hsub, if_pos hsne]

/-! ## Dictionary lemmas -/

theorem dictSet_not_mem (M : OutlineDict) (t : PyStr) (v : List PyStr)
    (h : t ∉ M.map Prod.fst) : dictSet M t v = M ++ [(t, v)] := by
  unfold dictSet
  rw [if_neg]
  intro hany
  rw [List.any_eq_true] at hany
  obtain ⟨p, hp, hpt⟩ := hany
  simp only [decide_eq_true_eq] at hpt
  exact h (List.mem_map.mpr ⟨p, hp, hpt⟩)

theorem dictAppend_concat (M : OutlineDict) (t : PyStr) (l : List PyStr) (x : PyStr)
    (h : t ∉ M.map Prod.fst) :
    dictAppend (M ++ [(t, l)]) t x = M ++ [(t, l ++ [x])] := by
  unfold dictAppend
  rw [List.map_append]
  congr 1
  · have hfix : ∀ p ∈ M, (if p.1 = t then (p.1, p.2 ++ [x]) else p) = id p := by
      intro p hp
      rw [if_neg, id]
      intro he
      exact h (List.mem_map.mpr ⟨p, hp, he⟩)
    rw [List.map_congr_left hfix, List.map_id]
  · simp

/-! ## The structural invariant of the outline parser -/

theorem mem_pyStrip (c : Char) (s : PyStr) (h : c ∈ pyStrip s) : c ∈ s := by
  unfold pyStrip pyRStrip at h
  have h1 := (List.rdropWhile_prefix pyIsSpace (pyLStrip s)).sublist.subset h
  exact (List.dropWhile_suffix pyIsSpace).sublist.subset h1

theorem mem_pyRStrip (c : Char) (s : PyStr) (h : c ∈ pyRStrip s) : c ∈ s :=
  (List.rdropWhile_prefix pyIsSpace s).sublist.subset h

theorem mem_splitFirst_snd (c : Char) (sep : Char) (s : PyStr)
    (h : c ∈ (splitFirst sep s).2) : c ∈ s := by
  unfold splitFirst at h
  have h1 := List.drop_subset 1 (s.dropWhile (fun x => x ≠ sep)) h
  exact (List.dropWhile_suffix _).sublist.subset h1

theorem dictSet_keys_of_mem (M : OutlineDict) (t : PyStr) (v : List PyStr)
    (h : (M.any (fun p => p.1 = t)) = true) :
    (dictSet M t v).map Prod.fst = M.map Prod.fst := by
  unfold dictSet
  rw [if_pos h, List.map_map]
  apply List.map_congr_left
  intro p _
  by_cases hp : p.1 = t <;> simp [hp]

theorem any_eq_false_not_mem (M : OutlineDict) (t : PyStr)
    (h : (M.any (fun p => p.1 = t)) = false) : t ∉ M.map Prod.fst := by
  intro hmem
  obtain ⟨p, hp, hpt⟩ := List.mem_map.mp hmem
  have : M.any (fun p => p.1 = t) = true :=
    List.any_eq_true.mpr ⟨p, hp, by simp [hpt]⟩
  rw [h] at this
  exact absurd this (by decide)

theorem dictSet_ok (M : OutlineDict) (t : PyStr) (hM : OutlineOk M)
    (ht : pyStrip t = t) (hnl : '\n' ∉ t) : OutlineOk (dictSet M t []) := by
  obtain ⟨hent, hnd⟩ := hM
  rcases hany : (M.any (fun p => p.1 = t)) with hf | htr
  · -- key absent: append
    rw [show dictSet M t [] = M ++ [(t, [])] by unfold dictSet; rw [if_neg (by rw [hany]; decide)]]
    constructor
    · intro p hp
      rcases List.mem_append.mp hp with hp | hp
      · exact hent p hp
      · rcases List.mem_singleton.mp hp with rfl
        exact ⟨ht, hnl, fun _ => rfl, by simp⟩
    · rw [List.map_append, List.nodup_append]
      refine ⟨hnd, by simp, ?_⟩
      intro a ha hb
      simp only [List.map_cons, List.map_nil, List.mem_singleton] at hb
      subst hb
      exact any_eq_false_not_mem M a hany ha
  · -- key present: replace in place
    constructor
    · intro p hp
      unfold dictSet at hp
      rw [if_pos hany] at hp
      obtain ⟨q, hq, hqe⟩ := List.mem_map.mp hp
      by_cases hqt : q.1 = t
      · rw [if_pos hqt] at hqe
        rw [← hqe]
        exact ⟨by rw [hqt]; exact ht, by rw [hqt]; exact hnl, fun _ => rfl, by simp⟩
      · rw [if_neg hqt] at hqe
        rw [← hqe]
        exact hent q hq
    · rw [dictSet_keys_of_mem M t [] hany]
      exact hnd

theorem dictAppend_ok (M : OutlineDict) (m x : PyStr) (hM : OutlineOk M)
    (hx : pyStrip x = x) (hxne : x ≠ []) (hxnl : '\n' ∉ x) (hm : m ≠ []) :
    OutlineOk (dictAppend M m x) := by
  obtain ⟨hent, hnd⟩ := hM
  constructor
  · intro p hp
    unfold dictAppend at hp
    obtain ⟨q, hq, hqe⟩ := List.mem_map.mp hp
    obtain ⟨hq1, hq2, hq3, hq4⟩ := hent q hq
    by_cases hqm : q.1 = m
    · rw [if_pos hqm] at hqe
      rw [← hqe]
      refine ⟨hq1, hq2, ?_, ?_⟩
      · intro hnil
        exact absurd (hqm ▸ hnil : m = []) hm
      · intro s hs
        rcases List.mem_append.mp hs with hs | hs
        · exact hq4 s hs
        · rcases List.mem_singleton.mp hs with rfl
          exact ⟨hx, hxne, hxnl⟩
    · rw [if_neg hqm] at hqe
      rw [← hqe]
      exact ⟨hq1, hq2, hq3, hq4⟩
  · have hkeys : (dictAppend M m x).map Prod.fst = M.map Prod.fst := by
      unfold dictAppend
      rw [List.map_map]
      apply List.map_congr_left
      intro p _
      by_cases hp : p.1 = m <;> simp [hp]
    rw [hkeys]
    exact hnd

theorem outlineStep_ok (M : OutlineDict) (cur : Option PyStr) (l : PyStr)
    (hl : '\n' ∉ l) (hM : OutlineOk M) : OutlineOk (outlineStep (M, cur) l).1 := by
  have hnl2 : '\n' ∉ pyStrip l := fun hx => hl (mem_pyStrip _ _ hx)
  unfold outlineStep
  by_cases h0 : pyStrip l = []
  · rw [if_pos h0]
    exact hM
  · rw [if_neg h0]
    by_cases h1 : kwModule.isPrefixOf (pyStrip l) = true
    · rw [if_pos h1]
      by_cases h2 : (pyStrip l).contains ':' = true
      · rw [if_pos h2]
        exact dictSet_ok M _ hM (pyStrip_idem _)
          (fun hx => hnl2 (mem_splitFirst_snd _ _ _ (mem_pyStrip _ _ hx)))
      · rw [if_neg h2]
        exact hM
    · rw [if_neg h1]
      rcases cur with _ | m
      · exact hM
      · show OutlineOk (if _ ∧ _ ∧ m ≠ [] then _ else ((M, some m) : OutlineDict × Option PyStr)).1
        by_cases h3 : ((pyStrip l).headI = '-' ∧ pyStrip l ≠ [] ∧ m ≠ [])
        · rw [if_pos h3]
          by_cases h4 : pyStrip ((pyStrip l).drop 1) ≠ []
          · rw [if_pos h4]
            exact dictAppend_ok M m _ hM (pyStrip_idem _) h4
              (fun hx => hnl2 (List.drop_subset 1 _ (mem_pyStrip _ _ hx))) h3.2.2
          · rw [if_neg h4]
            exact hM
        · rw [if_neg h3]
          exact hM

theorem foldl_outline_ok (lines : List PyStr) (st : OutlineDict × Option PyStr)
    (hnl : ∀ l ∈ lines, '\n' ∉ l) (h : OutlineOk st.1) :
    OutlineOk ((lines.foldl outlineStep st).1) := by
  induction lines generalizing st with
  | nil => simpa using h
  | cons l ls ih =>
    rw [List.foldl_cons]
    exact ih (outlineStep st l)
      (fun x hx => hnl x (List.mem_cons_of_mem l hx))
      (outlineStep_ok st.1 st.2 l (hnl l (List.mem_cons_self l ls)) h)

theorem parse_outline_ok (text : PyStr) : OutlineOk (parse_course_outline text) := by
  unfold parse_course_outline
  exact foldl_outline_ok _ _ (mem_splitLines_no_nl _) ⟨by simp, by simp⟩

/-! ## C5: the non-emptiness invariant of parsed outlines -/

/-- C5, counterexample.  The claim says every parsed outline has non-empty
module titles and a non-empty subtopic list per module.  The input
`Module 1:` produces a module with an *empty* title and an *empty* subtopic
list, and `Module 1: Intro` produces a non-empty title with an empty subtopic
list: the parser guarantees neither form of non-emptiness. -/
theorem outline_invariant_counterexample :
    parse_course_outline (("Module 1:").toList) = [([], [])] ∧
    parse_course_outline (("Module 1: Intro").toList) = [("Intro".toList, [])] := by
  constructor
  · decide
  · decide

/-- C5, amended.  What the parser does guarantee of every returned outline is
that each *subtopic string* is non-empty (lines reducing to a bare `-` are
dropped); module titles may be empty and a module's subtopic list may be
empty. -/
theorem outline_subtopics_nonempty (text : PyStr) :
    ∀ p ∈ parse_course_outline text, ∀ s ∈ p.2, s ≠ [] := by
  intro p hp s hs
  exact (((parse_outline_ok text).1 p hp).2.2.2 s hs).2.1

/-- Witness for `outline_subtopics_nonempty` at a concrete input. -/
theorem outline_subtopics_nonempty_witness : ("x".toList : PyStr) ≠ [] :=
  outline_subtopics_nonempty (("Module 1: A\n- x").toList)
    ("A".toList, ["x".toList]) (by decide) ("x".toList) (by decide)

/-! ## Bridging full-text parsing and line-by-line processing -/

theorem joinLines_cons_ne (l : PyStr) (M : List PyStr) (h : M ≠ []) :
    joinLines (l :: M) = l ++ '\n' :: joinLines M := by
  rcases M with _ | ⟨a, r⟩
  · exact absurd rfl h
  · rfl

theorem joinLines_concat_ne_nil (A : List PyStr) (x : PyStr) (hx : x ≠ []) :
    joinLines (A ++ [x]) ≠ [] := by
  induction A with
  | nil => simpa [joinLines] using hx
  | cons a A ih =>
    rw [List.cons_append, joinLines_cons_ne a _ (by simp)]
    rcases a with _ | ⟨c, r⟩
    · simp
    · simp

theorem pyRStrip_joinLines_concat (L : List PyStr) (x : PyStr)
    (hx : pyRStrip x ≠ []) :
    pyRStrip (joinLines (L ++ [x])) = joinLines (L ++ [pyRStrip x]) := by
  induction L with
  | nil => simp [joinLines]
  | cons l L ih =>
    have hxe : x ≠ [] := by
      intro hxe
      rw [hxe] at hx
      exact hx rfl
    rw [List.cons_append, joinLines_cons_ne l _ (by simp),
      List.cons_append, joinLines_cons_ne l _ (by simp)]
    have hne1 : pyRStrip (joinLines (L ++ [x])) ≠ [] := by
      rw [ih]
      exact joinLines_concat_ne_nil L (pyRStrip x) hx
    have hne2 : pyRStrip ('\n' :: joinLines (L ++ [x])) = '\n' :: pyRStrip (joinLines (L ++ [x])) :=
      pyRStrip_cons _ _ hne1
    rw [pyRStrip_append _ _ (by rw [hne2]; simp), hne2, ih]

theorem outlineStep_rstrip (st : OutlineDict × Option PyStr) (l : PyStr) :
    outlineStep st (pyRStrip l) = outlineStep st l := by
  unfold outlineStep
  rw [pyStrip_rstrip]

/-- Parsing the newline-join of clean lines is the same as folding the parser
loop over those lines: the source's outer `strip` and `split('\n')` reduce to
the identity on this shape. -/
theorem parse_joinLines (L : List PyStr) (x : PyStr)
    (hnl : ∀ l ∈ L ++ [x], '\n' ∉ l)
    (hhead : pyLStrip (joinLines (L ++ [x])) = joinLines (L ++ [x]))
    (hlast : pyRStrip x ≠ []) :
    parse_course_outline (joinLines (L ++ [x]))
      = (((L ++ [x]).foldl outlineStep ([], none)).1) := by
  unfold parse_course_outline
  have hstrip : pyStrip (joinLines (L ++ [x])) = joinLines (L ++ [pyRStrip x]) := by
    unfold pyStrip
    rw [hhead, pyRStrip_joinLines_concat L x hlast]
  rw [hstrip, splitLines_joinLines _ (by simp)]
  · rw [List.foldl_append, List.foldl_append, List.foldl_cons, List.foldl_cons,
      List.foldl_nil, List.foldl_nil, outlineStep_rstrip]
  · intro l hl
    rcases List.mem_append.mp hl with hl | hl
    · exact hnl l (List.mem_append.mpr (Or.inl hl))
    · rcases List.mem_singleton.mp hl with rfl
      intro hmem
      exact hnl x (List.mem_append.mpr (Or.inr (by simp))) (mem_pyRStrip _ _ hmem)

theorem moduleLine_no_nl (k : Nat) (t : PyStr) (ht : '\n' ∉ t) : '\n' ∉ moduleLine k t := by
  intro h
  unfold moduleLine at h
  rcases List.mem_append.mp h with h | h
  · rcases List.mem_append.mp h with h | h
    · exact absurd h (by decide)
    · exact absurd (natDigits_all_digit k '\n' h) (by decide)
  · rcases List.mem_cons.mp h with h | h
    · exact absurd h (by decide)
    · rcases List.mem_cons.mp h with h | h
      · exact absurd h (by decide)
      · exact ht h

theorem subLine_no_nl (s : PyStr) (hs : '\n' ∉ s) : '\n' ∉ subLine s := by
  intro h
  unfold subLine at h
  rcases List.mem_cons.mp h with h | h
  · exact absurd h (by decide)
  · rcases List.mem_cons.mp h with h | h
    · exact absurd h (by decide)
    · exact hs h

theorem pyRStrip_subLine (s : PyStr) (hs : pyStrip s = s) (hsne : s ≠ []) :
    pyRStrip (subLine s) = subLine s :=
  (pyStrip_parts _ (pyStrip_subLine s hs hsne)).2

theorem pyRStrip_moduleLine_ne_nil (k : Nat) (t : PyStr) (ht : pyStrip t = t) :
    pyRStrip (moduleLine k t) ≠ [] := by
  have hl : pyLStrip (moduleLine k t) = moduleLine k t := by
    rw [moduleLine_eq_cons]
    exact pyLStrip_cons_neg _ _ (by decide)
  have hstrip : pyStrip (moduleLine k t) = pyRStrip (moduleLine k t) := by
    unfold pyStrip
    rw [hl]
  rw [← hstrip]
  rcases eq_or_ne t [] with rfl | htne
  · rw [pyStrip_moduleLine_nil k]
    simp
  · rw [pyStrip_moduleLine_ne k t ht htne, moduleLine_eq_cons]
    simp

theorem dictSet_singleton_same (t : PyStr) (l v : List PyStr) :
    dictSet [(t, l)] t v = [(t, v)] := by
  unfold dictSet
  rw [if_pos (by simp)]
  simp

/-! ## C8: duplicate module titles reset the subtopic list -/

/-- C8.  When the same module title occurs on two `Module ...:` lines, the
later occurrence resets that title's subtopic list: the parsed outline maps the
title to exactly the subtopics of its last block, and the earlier block's
subtopics are absent. -/
theorem duplicate_module_title_last_wins (t s1 s2 : PyStr)
    (ht : pyStrip t = t) (htne : t ≠ []) (htnl : '\n' ∉ t)
    (hs1 : pyStrip s1 = s1) (hs1ne : s1 ≠ []) (hs1nl : '\n' ∉ s1)
    (hs2 : pyStrip s2 = s2) (hs2ne : s2 ≠ []) (hs2nl : '\n' ∉ s2) :
    parse_course_outline
        (joinLines [moduleLine 1 t, subLine s1, moduleLine 2 t, subLine s2])
      = [(t, [s2])] := by
  have hlines : ([moduleLine 1 t, subLine s1, moduleLine 2 t, subLine s2] : List PyStr)
      = [moduleLine 1 t, subLine s1, moduleLine 2 t] ++ [subLine s2] := rfl
  rw [hlines, parse_joinLines _ _ ?hnl ?hhead ?hlast]
  case hnl =>
    intro l hl
    simp only [List.cons_append, List.nil_append, List.mem_cons, List.not_mem_nil,
      or_false] at hl
    rcases hl with rfl | rfl | rfl | rfl
    · exact moduleLine_no_nl 1 t htnl
    · exact subLine_no_nl s1 hs1nl
    · exact moduleLine_no_nl 2 t htnl
    · exact subLine_no_nl s2 hs2nl
  case hhead =>
    rw [show ([moduleLine 1 t, subLine s1, moduleLine 2 t] ++ [subLine s2] : List PyStr)
        = moduleLine 1 t :: [subLine s1, moduleLine 2 t, subLine s2] from rfl,
      joinLines_cons_ne _ _ (by simp), moduleLine_eq_cons, List.cons_append]
    exact pyLStrip_cons_neg _ _ (by decide)
  case hlast =>
    rw [pyRStrip_subLine s2 hs2 hs2ne]
    simp [subLine]
  show (List.foldl outlineStep ([], none)
      [moduleLine 1 t, subLine s1, moduleLine 2 t, subLine s2]).1 = [(t, [s2])]
  rw [List.foldl_cons, outlineStep_moduleLine _ _ 1 t ht,
    dictSet_not_mem [] t [] (by simp), List.nil_append,
    List.foldl_cons, outlineStep_subLine _ t s1 hs1 hs1ne htne,
    show dictAppend [(t, [])] t s1 = [] ++ [(t, [] ++ [s1])] from
      dictAppend_concat [] t [] s1 (by simp),
    List.nil_append, List.nil_append,
    List.foldl_cons, outlineStep_moduleLine _ _ 2 t ht, dictSet_singleton_same,
    List.foldl_cons, outlineStep_subLine _ t s2 hs2 hs2ne htne,
    show dictAppend [(t, [])] t s2 = [] ++ [(t, [] ++ [s2])] from
      dictAppend_concat [] t [] s2 (by simp),
    List.nil_append, List.nil_append, List.foldl_nil]

/-- Witness for `duplicate_module_title_last_wins` at concrete inputs. -/
theorem duplicate_module_title_last_wins_witness :
    parse_course_outline
        (joinLines [moduleLine 1 ("Intro".toList), subLine ("x".toList),
          moduleLine 2 ("Intro".toList), subLine ("y".toList)])
      = [("Intro".toList, ["y".toList])] :=
  duplicate_module_title_last_wins ("Intro".toList) ("x".toList) ("y".toList)
    (by decide) (by decide) (by decide) (by decide) (by decide) (by decide)
    (by decide) (by decide) (by decide)

/-! ## C9: round-trip of serialized outlines -/

theorem run_subs (subs : List PyStr) (M : OutlineDict) (t : PyStr) (acc : List PyStr)
    (hsubs : ∀ s ∈ subs, pyStrip s = s ∧ s ≠ [] ∧ '\n' ∉ s)
    (htne : t ≠ []) (hnotmem : t ∉ M.map Prod.fst) :
    List.foldl outlineStep (M ++ [(t, acc)], some t) (subs.map subLine)
      = (M ++ [(t, acc ++ subs)], some t) := by
  induction subs generalizing acc with
  | nil => simp
  | cons s subs ih =>
    obtain ⟨h1, h2, _⟩ := hsubs s (by simp)
    rw [List.map_cons, List.foldl_cons, outlineStep_subLine _ t s h1 h2 htne,
      dictAppend_concat M t acc s hnotmem,
      ih (acc ++ [s]) (fun x hx => hsubs x (by simp [hx]))]
    simp

theorem run_blocks (D : OutlineDict) (M : OutlineDict) (cur : Option PyStr) (k : Nat)
    (hD : ∀ p ∈ D, OutlineEntryOk p)
    (hnd : (D.map Prod.fst).Nodup)
    (hdisj : ∀ u ∈ D.map Prod.fst, u ∉ M.map Prod.fst) :
    (List.foldl outlineStep (M, cur) (serializeBlocks k D)).1 = M ++ D := by
  induction D generalizing M cur k with
  | nil => simp [serializeBlocks]
  | cons p D ih =>
    obtain ⟨t, subs⟩ := p
    obtain ⟨ht, htnl, himp, hsubs⟩ := hD (t, subs) (by simp)
    have hmemM : t ∉ M.map Prod.fst := hdisj t (by simp)
    have hndD : (D.map Prod.fst).Nodup := by
      rw [List.map_cons, List.nodup_cons] at hnd
      exact hnd.2
    have htD : t ∉ D.map Prod.fst := by
      rw [List.map_cons, List.nodup_cons] at hnd
      exact hnd.1
    have hdisj2 : ∀ u ∈ D.map Prod.fst, u ∉ (M ++ [(t, subs)]).map Prod.fst := by
      intro u hu
      rw [List.map_append, List.mem_append]
      rintro (hc | hc)
      · exact hdisj u (by simp [hu]) hc
      · simp only [List.map_cons, List.map_nil, List.mem_singleton] at hc
        exact htD (hc ▸ hu)
    rw [show serializeBlocks k ((t, subs) :: D)
        = moduleLine k t :: (subs.map subLine ++ serializeBlocks (k + 1) D) from rfl]
    rw [List.foldl_cons, outlineStep_moduleLine M cur k t ht,
      dictSet_not_mem M t [] hmemM, List.foldl_append]
    rcases eq_or_ne t [] with rfl | htne
    · have hsubs0 : subs = [] := himp rfl
      subst hsubs0
      simp only [List.map_nil, List.foldl_nil]
      rw [ih (M ++ [([], [])]) (some []) (k + 1)
        (fun q hq => hD q (by simp [hq])) hndD (by simpa using hdisj2)]
      simp
    · rw [show (M ++ [(t, [])], (some t : Option PyStr))
          = (M ++ [(t, ([] : List PyStr))], some t) from rfl,
        run_subs subs M t [] hsubs htne hmemM,
        ih (M ++ [(t, [] ++ subs)]) (some t) (k + 1)
          (fun q hq => hD q (by simp [hq])) hndD (by simpa using hdisj2)]
      simp

theorem serializeBlocks_no_nl (D : OutlineDict) (k : Nat)
    (hD : ∀ p ∈ D, OutlineEntryOk p) :
    ∀ l ∈ serializeBlocks k D, '\n' ∉ l := by
  induction D generalizing k with
  | nil => simp [serializeBlocks]
  | cons p D ih =>
    obtain ⟨t, subs⟩ := p
    obtain ⟨ht, htnl, himp, hsubs⟩ := hD (t, subs) (by simp)
    intro l hl
    rw [show serializeBlocks k ((t, subs) :: D)
        = moduleLine k t :: (subs.map subLine ++ serializeBlocks (k + 1) D) from rfl] at hl
    rcases List.mem_cons.mp hl with rfl | hl
    · exact moduleLine_no_nl k t htnl
    · rcases List.mem_append.mp hl with hl | hl
      · obtain ⟨s, hs, rfl⟩ := List.mem_map.mp hl
        exact subLine_no_nl s (hsubs s hs).2.2
      · exact ih (k + 1) (fun q hq => hD q (by simp [hq])) l hl

theorem serializeBlocks_concat (D : OutlineDict) (k : Nat) (hne : D ≠ [])
    (hD : ∀ p ∈ D, OutlineEntryOk p) :
    ∃ L x, serializeBlocks k D = L ++ [x] ∧ pyRStrip x ≠ [] := by
  induction D generalizing k with
  | nil => exact absurd rfl hne
  | cons p D ih =>
    obtain ⟨t, subs⟩ := p
    obtain ⟨ht, htnl, himp, hsubs⟩ := hD (t, subs) (by simp)
    rcases eq_or_ne D [] with rfl | hDne
    · rcases eq_or_ne subs [] with rfl | hsne
      · refine ⟨[], moduleLine k t, by simp [serializeBlocks], pyRStrip_moduleLine_ne_nil k t ht⟩
      · obtain ⟨s, hsmem⟩ : ∃ s, s = subs.getLast hsne := ⟨_, rfl⟩
        have hdec : subs = subs.dropLast ++ [s] := by
          rw [hsmem]
          exact (List.dropLast_concat_getLast hsne).symm
        have hsp := hsubs s (by rw [hsmem]; exact List.getLast_mem hsne)
        refine ⟨moduleLine k t :: (subs.dropLast.map subLine), subLine s, ?_, ?_⟩
        · rw [show serializeBlocks k [(t, subs)]
              = moduleLine k t :: (subs.map subLine ++ []) from rfl]
          rw [List.append_nil]
          conv => lhs; rw [hdec]
          rw [List.map_append]
          simp
        · rw [pyRStrip_subLine s hsp.1 hsp.2.1]
          simp [subLine]
    · obtain ⟨L, x, hLx, hx⟩ := ih (k + 1) hDne (fun q hq => hD q (by simp [hq]))
      refine ⟨(moduleLine k t :: subs.map subLine) ++ L, x, ?_, hx⟩
      rw [show serializeBlocks k ((t, subs) :: D)
          = (moduleLine k t :: subs.map subLine) ++ serializeBlocks (k + 1) D from rfl,
        hLx, List.append_assoc]

theorem pyLStrip_joinLines_module (k : Nat) (t : PyStr) (rest : List PyStr) :
    pyLStrip (joinLines (moduleLine k t :: rest)) = joinLines (moduleLine k t :: rest) := by
  rcases eq_or_ne rest [] with rfl | hrest
  · show pyLStrip (moduleLine k t) = moduleLine k t
    rw [moduleLine_eq_cons]
    exact pyLStrip_cons_neg _ _ (by decide)
  · rw [joinLines_cons_ne _ _ hrest, moduleLine_eq_cons, List.cons_append]
    exact pyLStrip_cons_neg _ _ (by decide)

theorem parse_serialize_ok (D : OutlineDict) (hOk : OutlineOk D) :
    parse_course_outline (serialize_outline D) = D := by
  obtain ⟨hent, hnd⟩ := hOk
  rcases eq_or_ne D [] with rfl | hne
  · rfl
  · obtain ⟨p, D', rfl⟩ := List.exists_cons_of_ne_nil hne
    obtain ⟨t, subs⟩ := p
    obtain ⟨L, x, hLx, hx⟩ := serializeBlocks_concat _ 1 (by simp) hent
    unfold serialize_outline
    rw [hLx, parse_joinLines L x ?hnl ?hhead hx, ← hLx,
      run_blocks _ [] none 1 hent hnd (by simp)]
    · simp
    case hnl =>
      intro l hl
      exact serializeBlocks_no_nl _ 1 hent l (hLx ▸ hl)
    case hhead =>
      rw [← hLx]
      exact pyLStrip_joinLines_module 1 t (subs.map subLine ++ serializeBlocks 2 D')

/-- C9.  Round-trip: serializing any outline produced by the Outline Parser to
the textual `Module k: <title>` / `- <subtopic>` format and re-parsing the
serialization yields an outline equal to the original, with the same module
titles in the same order, each mapped to the same ordered subtopic list. -/
theorem outline_roundtrip (text : PyStr) :
    parse_course_outline (serialize_outline (parse_course_outline text))
      = parse_course_outline text :=
  parse_serialize_ok _ (parse_outline_ok text)

/-! ## C6: selection rule of the Video Ranker -/

theorem scored_foldl_eq_filterMap (videos : List VideoItem) (q : PyStr)
    (acc : List (VideoItem × ℚ)) :
    videos.foldl (fun acc video =>
      match scoreVideo video q with
      | some s => acc ++ [(video, s)]
      | none => acc) acc
      = acc ++ videos.filterMap (fun v => (scoreVideo v q).map (fun s => (v, s))) := by
  induction videos generalizing acc with
  | nil => simp
  | cons v vs ih =>
    rw [List.foldl_cons]
    rcases hv : scoreVideo v q with _ | s
    · simp only [hv, List.filterMap_cons, Option.map_none]
      exact ih acc
    · simp only [hv, List.filterMap_cons, Option.map_some]
      rw [ih (acc ++ [(v, s)])]
      simp

theorem insertDesc_head (a : VideoItem × ℚ) (m : List (VideoItem × ℚ)) :
    (insertDesc a m).head? = some (match m.head? with
      | none => a
      | some b => if b.2 > a.2 then b else a) := by
  rcases m with _ | ⟨b, t⟩
  · rfl
  · unfold insertDesc
    by_cases h : a.2 < b.2
    · rw [if_pos h]
      simp only [List.head?_cons]
      rw [if_pos h]
    · rw [if_neg h]
      simp only [List.head?_cons]
      rw [if_neg h]

theorem sortDesc_head (l : List (VideoItem × ℚ)) : (sortDesc l).head? = firstMax l := by
  induction l with
  | nil => rfl
  | cons a t ih =>
    rw [show sortDesc (a :: t) = insertDesc a (sortDesc t) from rfl, insertDesc_head, ih]
    rw [show firstMax (a :: t) = (match firstMax t with
      | none => some a
      | some b => some (if b.2 > a.2 then b else a)) from rfl]
    rcases hfm : firstMax t with _ | b
    · rfl
    · rfl

theorem firstMax_eq_none_iff (l : List (VideoItem × ℚ)) : firstMax l = none ↔ l = [] := by
  rcases l with _ | ⟨a, t⟩
  · simp [firstMax]
  · rw [show firstMax (a :: t) = (match firstMax t with
      | none => some a
      | some b => some (if b.2 > a.2 then b else a)) from rfl]
    rcases firstMax t with _ | b <;> simp

/-- C6.  `_select_best_video` returns exactly the first candidate attaining the
maximal accumulated score among those whose scoring does not raise (`firstMax`
replaces the current best only on a strictly larger score, so ties keep the
earlier candidate), and it returns `none` exactly when the candidate list is
empty or every candidate raises a data error during scoring; a malformed
candidate is skipped (dropped by the `filterMap`) without aborting the rest. -/
theorem video_ranker_first_max (videos : List VideoItem) (q : PyStr) :
    select_best_video videos q
      = (firstMax (videos.filterMap
          (fun v => (scoreVideo v q).map (fun s => (v, s))))).map Prod.fst
    ∧ (select_best_video videos q = none
        ↔ videos = [] ∨ ∀ v ∈ videos, scoreVideo v q = none) := by
  have head_map_fst : ∀ l : List (VideoItem × ℚ),
      (match l with
        | [] => (none : Option VideoItem)
        | p :: _ => some p.1) = l.head?.map Prod.fst := by
    intro l
    rcases l with _ | ⟨p, r⟩
    · rfl
    · rfl
  have hmain : select_best_video videos q
      = (firstMax (videos.filterMap
          (fun v => (scoreVideo v q).map (fun s => (v, s))))).map Prod.fst := by
    rcases eq_or_ne videos [] with rfl | hne
    · simp [select_best_video, firstMax]
    · have hzeta : select_best_video videos q
          = (match sortDesc (videos.filterMap
              (fun v => (scoreVideo v q).map (fun s => (v, s)))) with
            | [] => (none : Option VideoItem)
            | p :: _ => some p.1) := by
        unfold select_best_video
        rw [if_neg hne, scored_foldl_eq_filterMap videos q [], List.nil_append]
      rw [hzeta, head_map_fst, sortDesc_head]
  refine ⟨hmain, ?_⟩
  rw [hmain]
  constructor
  · intro h
    rcases eq_or_ne videos [] with rfl | hne
    · exact Or.inl rfl
    · right
      intro v hv
      have hfm : firstMax (videos.filterMap
          (fun v => (scoreVideo v q).map (fun s => (v, s)))) = none := by
        rcases hh : firstMax (videos.filterMap
            (fun v => (scoreVideo v q).map (fun s => (v, s)))) with _ | b
        · rfl
        · rw [hh] at h
          simp at h
      have hnil := (firstMax_eq_none_iff _).mp hfm
      have hvnone := List.filterMap_eq_nil_iff.mp hnil v hv
      rcases hsv : scoreVideo v q with _ | s
      · rfl
      · rw [hsv] at hvnone
        simp at hvnone
  · rintro (rfl | hall)
    · rfl
    · have hnil : videos.filterMap (fun v => (scoreVideo v q).map (fun s => (v, s))) = [] :=
        List.filterMap_eq_nil_iff.mpr (fun v hv => by rw [hall v hv]; rfl)
      rw [hnil]
      rfl

/-! ## C7: the ISO-8601 duration parser -/

/-- C7, counterexample.  The claim says the seconds component is the numeric
prefix before the unit letter `S`, which on `PT1S2` would give 1 second.  The
source computes `int(remainder.replace('S', ''))`, i.e. the *whole* remainder
with every `S` deleted, which on `PT1S2` gives 12 seconds. -/
theorem parse_duration_counterexample :
    parse_duration (("PT1S2").toList) = 12 ∧ (12 : Int) ≠ 1 := by
  constructor
  · decide
  · decide

theorem strip_of_nonspace (s : PyStr) (h : ∀ c ∈ s, pyIsSpace c = false) :
    pyStrip s = s := by
  have h1 : pyLStrip s = s := by
    rcases s with _ | ⟨c, t⟩
    · rfl
    · exact pyLStrip_cons_neg c t (by rw [h c (by simp)]; decide)
  unfold pyStrip
  rw [h1]
  show List.rdropWhile pyIsSpace s = s
  apply List.rdropWhile_eq_self_iff.mpr
  intro hl
  simp [h _ (List.getLast_mem hl)]

theorem removePT_no_p (l : PyStr) (h : 'P' ∉ l) : removePT l = l := by
  induction l with
  | nil => rfl
  | cons c rest ih =>
    have hc : ¬ c = 'P' := fun he => h (by simp [he])
    rcases rest with _ | ⟨d, rest2⟩
    · rfl
    · rw [show removePT (c :: d :: rest2)
          = if c = 'P' ∧ d = 'T' then removePT rest2 else c :: removePT (d :: rest2) from rfl,
        if_neg (fun hcd => hc hcd.1), ih (fun hm => h (List.mem_cons_of_mem c hm))]

theorem removePT_pt (l : PyStr) (h : 'P' ∉ l) : removePT ('P' :: 'T' :: l) = l := by
  rw [show removePT ('P' :: 'T' :: l)
      = if ('P' : Char) = 'P' ∧ ('T' : Char) = 'T' then removePT l else 'P' :: removePT ('T' :: l)
      from rfl,
    if_pos ⟨rfl, rfl⟩]
  exact removePT_no_p l h

theorem not_contains_of_forall (l : PyStr) (u : Char) (h : ∀ c ∈ l, c ≠ u) :
    l.contains u = false := by
  rcases hc : l.contains u
  · rfl
  · exact absurd (List.elem_iff.mp hc) (fun hm => h u hm rfl)

theorem contains_mid (A B : PyStr) (u : Char) : (A ++ u :: B).contains u = true :=
  List.elem_eq_true_of_mem (by simp)

theorem seg0_mid (A B : PyStr) (u : Char) (hA : ∀ c ∈ A, decide (c ≠ u) = true) :
    seg0 u (A ++ u :: B) = A := by
  unfold seg0
  rw [List.takeWhile_append_of_pos hA, List.takeWhile_cons_of_neg (by simp)]
  simp

theorem seg1_mid (A B : PyStr) (u : Char) (hA : ∀ c ∈ A, decide (c ≠ u) = true)
    (hB : ∀ c ∈ B, decide (c ≠ u) = true) :
    seg1 u (A ++ u :: B) = B := by
  unfold seg1
  rw [List.dropWhile_append_of_pos hA, List.dropWhile_cons_of_neg (by simp), List.drop_one,
    List.tail_cons, List.takeWhile_eq_self_iff.mpr hB]

theorem digit_ne_decide (s : PyStr) (hdig : ∀ c ∈ s, c.isDigit = true) (u : Char)
    (hu : u.isDigit = false) : ∀ c ∈ s, decide (c ≠ u) = true := by
  intro c hc
  simp only [decide_eq_true_eq]
  exact isDigit_ne c (hdig c hc) u hu

theorem pyInt_digits (s : PyStr) (hne : s ≠ []) (hdig : ∀ c ∈ s, c.isDigit = true) :
    pyInt s = some (digitsVal s) := by
  have hstrip : pyStrip s = s :=
    strip_of_nonspace s (fun c hc => isDigit_not_space c (hdig c hc))
  obtain ⟨c, t, rfl⟩ : ∃ c t, s = c :: t := by
    rcases s with _ | ⟨c, t⟩
    · exact absurd rfl hne
    · exact ⟨c, t, rfl⟩
  have hc := hdig c (by simp)
  have hvalid : pyIntValid (c :: t) = true := by
    simp only [pyIntValid, Bool.and_eq_true]
    refine ⟨⟨⟨⟨by simp, ?_⟩, ?_⟩, ?_⟩, ?_⟩
    · simp only [List.headI_cons, decide_eq_true_eq]
      exact isDigit_ne c hc '_' (by decide)
    · rw [List.getLastD_cons]
      simp only [decide_eq_true_eq]
      exact isDigit_ne _ (hdig _ (List.getLastD_mem_cons t c)) '_' (by decide)
    · rw [List.all_eq_true]
      intro x hx
      rw [hdig x hx]
      rfl
    · rw [List.all_eq_true]
      intro p hp
      have h1 := (List.of_mem_zip hp).1
      have hd1 := hdig p.1 h1
      have hp1 : decide (p.1 = '_') = false := by
        simp only [decide_eq_false_iff_not]
        exact isDigit_ne p.1 hd1 '_' (by decide)
      rw [hp1]
      rfl
  have hfil : (c :: t).filter (fun x => decide (x ≠ '_')) = c :: t :=
    List.filter_eq_self.mpr (digit_ne_decide (c :: t) hdig '_' (by decide))
  have hr : (if c = '-' ∨ c = '+' then (c :: t).tail else c :: t) = c :: t :=
    if_neg (not_or.mpr ⟨isDigit_ne c hc '-' (by decide), isDigit_ne c hc '+' (by decide)⟩)
  have hsign : (if c = '-' then (-1 : Int) else 1) = 1 :=
    if_neg (isDigit_ne c hc '-' (by decide))
  simp only [pyInt, hstrip, List.headI_cons]
  rw [hr, hsign, if_pos hvalid, hfil, one_mul]

theorem not_mem_of_digits (s : PyStr) (hdig : ∀ c ∈ s, c.isDigit = true) (u : Char)
    (hu : u.isDigit = false) : u ∉ s := by
  intro hm
  rw [hdig u hm] at hu
  exact absurd hu (by decide)

theorem forall_decNe_append (A B : PyStr) (u : Char)
    (hA : ∀ c ∈ A, decide (c ≠ u) = true) (hB : ∀ c ∈ B, decide (c ≠ u) = true) :
    ∀ c ∈ A ++ B, decide (c ≠ u) = true := by
  intro c hc
  rcases List.mem_append.mp hc with h | h
  · exact hA c h
  · exact hB c h

theorem forall_decNe_cons (d : Char) (B : PyStr) (u : Char)
    (hd : decide (d ≠ u) = true) (hB : ∀ c ∈ B, decide (c ≠ u) = true) :
    ∀ c ∈ d :: B, decide (c ≠ u) = true := by
  intro c hc
  rcases List.mem_cons.mp hc with rfl | h
  · exact hd
  · exact hB c h

theorem forall_decNe_nil (u : Char) : ∀ c ∈ ([] : PyStr), decide (c ≠ u) = true := by
  intro c hc
  exact absurd hc (List.not_mem_nil c)

theorem pyInt_x_cons (th : PyStr) (hdig : ∀ c ∈ th, c.isDigit = true) :
    pyInt ('x' :: th) = none := by
  have hstrip : pyStrip ('x' :: th) = 'x' :: th := by
    apply strip_of_nonspace
    intro c hc
    rcases List.mem_cons.mp hc with rfl | h
    · decide
    · exact isDigit_not_space c (hdig c h)
  have hr : (if ('x' :: th).headI = '-' ∨ ('x' :: th).headI = '+'
      then ('x' :: th).tail else 'x' :: th) = 'x' :: th := by
    rw [List.headI_cons]
    exact if_neg (by decide)
  have hvalid : pyIntValid ('x' :: th) = false := by
    unfold pyIntValid
    rw [List.all_cons]
    rw [show (('x' : Char).isDigit || decide (('x' : Char) = '_')) = false from by decide]
    simp
  simp only [pyInt, hstrip]
  rw [hr, hvalid]
  simp

/-- C7, amended.  `_parse_duration` on canonical inputs: hours are the digits
before `H`, minutes the digits before `M` in the remainder, seconds the digits
of the remainder with every `S` *deleted* (for canonical strings ending in `S`
this is the prefix before `S`, but trailing text after `S` is absorbed into
the number rather than ignored); a missing component contributes 0, a string
with no recognized unit yields 0, and a non-numeric component prefix makes the
whole parse yield 0 rather than a partial sum — the function is total and
never raises. -/
theorem parse_duration_amended (th tm ts : PyStr)
    (hh1 : th ≠ []) (hh2 : ∀ c ∈ th, c.isDigit = true)
    (hm1 : tm ≠ []) (hm2 : ∀ c ∈ tm, c.isDigit = true)
    (hs1 : ts ≠ []) (hs2 : ∀ c ∈ ts, c.isDigit = true) :
    parse_duration ('P' :: 'T' :: (th ++ 'H' :: (tm ++ 'M' :: (ts ++ ['S']))))
      = digitsVal th * 3600 + digitsVal tm * 60 + digitsVal ts
  ∧ parse_duration ('P' :: 'T' :: (tm ++ 'M' :: (ts ++ ['S'])))
      = digitsVal tm * 60 + digitsVal ts
  ∧ parse_duration ('P' :: 'T' :: (ts ++ ['S'])) = digitsVal ts
  ∧ parse_duration ('P' :: 'T' :: th) = 0
  ∧ parse_duration ('P' :: 'T' :: ('x' :: th ++ ['H'])) = 0 := by
  have hfilS : (ts ++ ['S']).filter (fun c => decide (c ≠ 'S')) = ts := by
    rw [List.filter_append, List.filter_eq_self.mpr (digit_ne_decide ts hs2 'S' (by decide))]
    simp
  have hSd2 : (ts ++ ['S']).contains 'S' = true := contains_mid ts [] 'S'
  refine ⟨?_, ?_, ?_, ?_, ?_⟩
  · have hd0 : removePT ('P' :: 'T' :: (th ++ 'H' :: (tm ++ 'M' :: (ts ++ ['S']))))
        = th ++ 'H' :: (tm ++ 'M' :: (ts ++ ['S'])) := by
      apply removePT_pt
      intro hm
      rcases List.mem_append.mp hm with h | h
      · exact not_mem_of_digits th hh2 'P' (by decide) h
      · rcases List.mem_cons.mp h with h | h
        · exact absurd h (by decide)
        · rcases List.mem_append.mp h with h | h
          · exact not_mem_of_digits tm hm2 'P' (by decide) h
          · rcases List.mem_cons.mp h with h | h
            · exact absurd h (by decide)
            · rcases List.mem_append.mp h with h | h
              · exact not_mem_of_digits ts hs2 'P' (by decide) h
              · exact absurd (List.mem_singleton.mp h) (by decide)
    have hB1 : ∀ c ∈ tm ++ 'M' :: (ts ++ ['S']), decide (c ≠ 'H') = true :=
      forall_decNe_append _ _ _ (digit_ne_decide tm hm2 'H' (by decide))
        (forall_decNe_cons _ _ _ (by decide)
          (forall_decNe_append _ _ _ (digit_ne_decide ts hs2 'H' (by decide))
            (forall_decNe_cons _ _ _ (by decide) (forall_decNe_nil _))))
    have hB2 : ∀ c ∈ ts ++ ['S'], decide (c ≠ 'M') = true :=
      forall_decNe_append _ _ _ (digit_ne_decide ts hs2 'M' (by decide))
        (forall_decNe_cons _ _ _ (by decide) (forall_decNe_nil _))
    simp only [parse_duration, hd0,
      contains_mid th _ 'H', if_true,
      seg0_mid th _ 'H' (digit_ne_decide th hh2 'H' (by decide)),
      seg1_mid th _ 'H' (digit_ne_decide th hh2 'H' (by decide)) hB1,
      pyInt_digits th hh1 hh2, Option.map_some',
      contains_mid tm _ 'M',
      seg0_mid tm _ 'M' (digit_ne_decide tm hm2 'M' (by decide)),
      seg1_mid tm _ 'M' (digit_ne_decide tm hm2 'M' (by decide)) hB2,
      pyInt_digits tm hm1 hm2,
      hSd2, hfilS, pyInt_digits ts hs1 hs2]
  · have hd0 : removePT ('P' :: 'T' :: (tm ++ 'M' :: (ts ++ ['S'])))
        = tm ++ 'M' :: (ts ++ ['S']) := by
      apply removePT_pt
      intro hm
      rcases List.mem_append.mp hm with h | h
      · exact not_mem_of_digits tm hm2 'P' (by decide) h
      · rcases List.mem_cons.mp h with h | h
        · exact absurd h (by decide)
        · rcases List.mem_append.mp h with h | h
          · exact not_mem_of_digits ts hs2 'P' (by decide) h
          · exact absurd (List.mem_singleton.mp h) (by decide)
    have hnoH : (tm ++ 'M' :: (ts ++ ['S'])).contains 'H' = false := by
      apply not_contains_of_forall
      intro c hc
      rcases List.mem_append.mp hc with h | h
      · exact isDigit_ne c (hm2 c h) 'H' (by decide)
      · rcases List.mem_cons.mp h with rfl | h
        · decide
        · rcases List.mem_append.mp h with h | h
          · exact isDigit_ne c (hs2 c h) 'H' (by decide)
          · rcases List.mem_singleton.mp h with rfl
            decide
    have hB2 : ∀ c ∈ ts ++ ['S'], decide (c ≠ 'M') = true :=
      forall_decNe_append _ _ _ (digit_ne_decide ts hs2 'M' (by decide))
        (forall_decNe_cons _ _ _ (by decide) (forall_decNe_nil _))
    simp only [parse_duration, hd0, hnoH, Bool.false_eq_true, if_false,
      contains_mid tm _ 'M', if_true,
      seg0_mid tm _ 'M' (digit_ne_decide tm hm2 'M' (by decide)),
      seg1_mid tm _ 'M' (digit_ne_decide tm hm2 'M' (by decide)) hB2,
      pyInt_digits tm hm1 hm2, Option.map_some',
      hSd2, hfilS, pyInt_digits ts hs1 hs2, zero_mul, zero_add]
  · have hd0 : removePT ('P' :: 'T' :: (ts ++ ['S'])) = ts ++ ['S'] := by
      apply removePT_pt
      intro hm
      rcases List.mem_append.mp hm with h | h
      · exact not_mem_of_digits ts hs2 'P' (by decide) h
      · exact absurd (List.mem_singleton.mp h) (by decide)
    have hnoH : (ts ++ ['S']).contains 'H' = false := by
      apply not_contains_of_forall
      intro c hc
      rcases List.mem_append.mp hc with h | h
      · exact isDigit_ne c (hs2 c h) 'H' (by decide)
      · rcases List.mem_singleton.mp h with rfl
        decide
    have hnoM : (ts ++ ['S']).contains 'M' = false := by
      apply not_contains_of_forall
      intro c hc
      rcases List.mem_append.mp hc with h | h
      · exact isDigit_ne c (hs2 c h) 'M' (by decide)
      · rcases List.mem_singleton.mp h with rfl
        decide
    simp only [parse_duration, hd0, hnoH, hnoM, Bool.false_eq_true, if_false,
      hSd2, if_true, hfilS, pyInt_digits ts hs1 hs2, zero_mul, zero_add]
  · have hd0 : removePT ('P' :: 'T' :: th) = th :=
      removePT_pt th (not_mem_of_digits th hh2 'P' (by decide))
    have hnoH : th.contains 'H' = false :=
      not_contains_of_forall th 'H' (fun c hc => isDigit_ne c (hh2 c hc) 'H' (by decide))
    have hnoM : th.contains 'M' = false :=
      not_contains_of_forall th 'M' (fun c hc => isDigit_ne c (hh2 c hc) 'M' (by decide))
    have hnoS : th.contains 'S' = false :=
      not_contains_of_forall th 'S' (fun c hc => isDigit_ne c (hh2 c hc) 'S' (by decide))
    simp only [parse_duration, hd0, hnoH, hnoM, hnoS, Bool.false_eq_true, if_false,
      zero_mul, zero_add, add_zero]
  · have hd0 : removePT ('P' :: 'T' :: ('x' :: th ++ ['H'])) = 'x' :: th ++ ['H'] := by
      apply removePT_pt
      intro hm
      rcases List.mem_cons.mp hm with h | h
      · exact absurd h (by decide)
      · rcases List.mem_append.mp h with h | h
        · exact not_mem_of_digits th hh2 'P' (by decide) h
        · exact absurd (List.mem_singleton.mp h) (by decide)
    have hxne : ∀ c ∈ ('x' :: th : PyStr), decide (c ≠ 'H') = true :=
      forall_decNe_cons _ _ _ (by decide) (digit_ne_decide th hh2 'H' (by decide))
    have hcont : ('x' :: th ++ ['H'] : PyStr).contains 'H' = true := by
      rw [show ('x' :: th ++ ['H'] : PyStr) = ('x' :: th) ++ 'H' :: [] by simp]
      exact contains_mid _ _ _
    have hseg0 : seg0 'H' ('x' :: th ++ ['H']) = 'x' :: th := by
      rw [show ('x' :: th ++ ['H'] : PyStr) = ('x' :: th) ++ 'H' :: [] by simp]
      exact seg0_mid _ _ _ hxne
    simp only [parse_duration, hd0, hcont, if_true, hseg0, pyInt_x_cons th hh2, Option.map_none']

/-- Witness for `parse_duration_amended` at concrete digit strings. -/
theorem parse_duration_amended_witness :
    parse_duration ('P' :: 'T' :: (("1").toList ++ 'H' :: (("2").toList ++ 'M' :: (("3").toList ++ ['S']))))
      = digitsVal (("1").toList) * 3600 + digitsVal (("2").toList) * 60 + digitsVal (("3").toList)
  ∧ parse_duration ('P' :: 'T' :: (("2").toList ++ 'M' :: (("3").toList ++ ['S'])))
      = digitsVal (("2").toList) * 60 + digitsVal (("3").toList)
  ∧ parse_duration ('P' :: 'T' :: (("3").toList ++ ['S'])) = digitsVal (("3").toList)
  ∧ parse_duration ('P' :: 'T' :: ("1").toList) = 0
  ∧ parse_duration ('P' :: 'T' :: ('x' :: ("1").toList ++ ['H'])) = 0 :=
  parse_duration_amended (("1").toList) (("2").toList) (("3").toList)
    (by decide) (by decide) (by decide) (by decide) (by decide) (by decide)

/-! ## C10: the option shuffler -/

theorem shuffle_core (quiz : QuizDict) (t0 t1 t2 t3 : PyStr)
    (hmem : optLookup quiz ((quiz.correct_answer).getD ['A']) = t0 ∨
      optLookup quiz ((quiz.correct_answer).getD ['A']) = t1 ∨
      optLookup quiz ((quiz.correct_answer).getD ['A']) = t2 ∨
      optLookup quiz ((quiz.correct_answer).getD ['A']) = t3) :
    optLookup (shuffle_quiz_options quiz [t0, t1, t2, t3])
        (((shuffle_quiz_options quiz [t0, t1, t2, t3]).correct_answer).getD ['A'])
      = optLookup quiz ((quiz.correct_answer).getD ['A'])
    ∧ (shuffle_quiz_options quiz [t0, t1, t2, t3]).option_a = some t0
    ∧ (shuffle_quiz_options quiz [t0, t1, t2, t3]).option_b = some t1
    ∧ (shuffle_quiz_options quiz [t0, t1, t2, t3]).option_c = some t2
    ∧ (shuffle_quiz_options quiz [t0, t1, t2, t3]).option_d = some t3
    ∧ (shuffle_quiz_options quiz [t0, t1, t2, t3]).question = quiz.question
    ∧ (shuffle_quiz_options quiz [t0, t1, t2, t3]).explanation = quiz.explanation := by
  have hfind : findLetter (optLookup quiz ((quiz.correct_answer).getD ['A']))
      [(['A'], t0), (['B'], t1), (['C'], t2), (['D'], t3)]
      = (if t0 = optLookup quiz ((quiz.correct_answer).getD ['A']) then some ['A']
         else if t1 = optLookup quiz ((quiz.correct_answer).getD ['A']) then some ['B']
         else if t2 = optLookup quiz ((quiz.correct_answer).getD ['A']) then some ['C']
         else if t3 = optLookup quiz ((quiz.correct_answer).getD ['A']) then some ['D']
         else none) := rfl
  have hg0 : ([t0, t1, t2, t3] : List PyStr).getD 0 [] = t0 := rfl
  have hg1 : ([t0, t1, t2, t3] : List PyStr).getD 1 [] = t1 := rfl
  have hg2 : ([t0, t1, t2, t3] : List PyStr).getD 2 [] = t2 := rfl
  have hg3 : ([t0, t1, t2, t3] : List PyStr).getD 3 [] = t3 := rfl
  by_cases h0 : t0 = optLookup quiz ((quiz.correct_answer).getD ['A'])
  · have hf : findLetter (optLookup quiz ((quiz.correct_answer).getD ['A']))
        [(['A'], t0), (['B'], t1), (['C'], t2), (['D'], t3)] = some ['A'] := by
      rw [hfind, if_pos h0]
    simp only [shuffle_quiz_options, hg0, hg1, hg2, hg3, hf]
    simp [optLookup, h0]
  · by_cases h1 : t1 = optLookup quiz ((quiz.correct_answer).getD ['A'])
    · have hf : findLetter (optLookup quiz ((quiz.correct_answer).getD ['A']))
          [(['A'], t0), (['B'], t1), (['C'], t2), (['D'], t3)] = some ['B'] := by
        rw [hfind, if_neg h0, if_pos h1]
      simp only [shuffle_quiz_options, hg0, hg1, hg2, hg3, hf]
      simp [optLookup, h1]
    · by_cases h2 : t2 = optLookup quiz ((quiz.correct_answer).getD ['A'])
      · have hf : findLetter (optLookup quiz ((quiz.correct_answer).getD ['A']))
            [(['A'], t0), (['B'], t1), (['C'], t2), (['D'], t3)] = some ['C'] := by
          rw [hfind, if_neg h0, if_neg h1, if_pos h2]
        simp only [shuffle_quiz_options, hg0, hg1, hg2, hg3, hf]
        simp [optLookup, h2]
      · by_cases h3 : t3 = optLookup quiz ((quiz.correct_answer).getD ['A'])
        · have hf : findLetter (optLookup quiz ((quiz.correct_answer).getD ['A']))
              [(['A'], t0), (['B'], t1), (['C'], t2), (['D'], t3)] = some ['D'] := by
            rw [hfind, if_neg h0, if_neg h1, if_neg h2, if_pos h3]
          simp only [shuffle_quiz_options, hg0, hg1, hg2, hg3, hf]
          simp [optLookup, h3]
        · exfalso
          rcases hmem with h | h | h | h
          · exact h0 h.symm
          · exact h1 h.symm
          · exact h2 h.symm
          · exact h3 h.symm

/-- C10.  For a quiz record with four non-empty option texts and a correct
answer label in `{A, B, C, D}`, and any permutation of the four option texts
standing for the result of `random.shuffle`, `shuffle_quiz_options` returns a
record whose option text at its (possibly relabelled) correct-answer label
equals the input's option text at the input's correct-answer label, whose four
option texts are a permutation of the input's four option texts, and whose
question and explanation fields are unchanged. -/
theorem shuffle_quiz_options_correct (quiz : QuizDict) (shuffled : List PyStr)
    (hperm : shuffled.Perm [quiz.option_a.getD [], quiz.option_b.getD [],
      quiz.option_c.getD [], quiz.option_d.getD []])
    (_hne : quiz.option_a.getD [] ≠ [] ∧ quiz.option_b.getD [] ≠ [] ∧
      quiz.option_c.getD [] ≠ [] ∧ quiz.option_d.getD [] ≠ [])
    (hca : quiz.correct_answer = some ['A'] ∨ quiz.correct_answer = some ['B'] ∨
      quiz.correct_answer = some ['C'] ∨ quiz.correct_answer = some ['D']) :
    optLookup (shuffle_quiz_options quiz shuffled)
        (((shuffle_quiz_options quiz shuffled).correct_answer).getD ['A'])
      = optLookup quiz ((quiz.correct_answer).getD ['A'])
    ∧ [(shuffle_quiz_options quiz shuffled).option_a.getD [],
        (shuffle_quiz_options quiz shuffled).option_b.getD [],
        (shuffle_quiz_options quiz shuffled).option_c.getD [],
        (shuffle_quiz_options quiz shuffled).option_d.getD []].Perm
        [quiz.option_a.getD [], quiz.option_b.getD [],
          quiz.option_c.getD [], quiz.option_d.getD []]
    ∧ (shuffle_quiz_options quiz shuffled).question = quiz.question
    ∧ (shuffle_quiz_options quiz shuffled).explanation = quiz.explanation := by
  have hlen : shuffled.length = 4 := by
    rw [hperm.length_eq]
    rfl
  rcases shuffled with _ | ⟨t0, _ | ⟨t1, _ | ⟨t2, _ | ⟨t3, _ | ⟨t4, r⟩⟩⟩⟩⟩
  · simp at hlen
  · simp at hlen
  · simp at hlen
  · simp at hlen
  case cons.cons.cons.cons.cons =>
    simp at hlen
  case cons.cons.cons.cons.nil =>
    have hct : optLookup quiz ((quiz.correct_answer).getD ['A'])
        ∈ [quiz.option_a.getD [], quiz.option_b.getD [],
          quiz.option_c.getD [], quiz.option_d.getD []] := by
      rcases hca with h | h | h | h <;> rw [h] <;> simp [optLookup]
    have hctm : optLookup quiz ((quiz.correct_answer).getD ['A']) ∈ [t0, t1, t2, t3] :=
      (hperm.mem_iff).mpr hct
    have hmem : optLookup quiz ((quiz.correct_answer).getD ['A']) = t0 ∨
        optLookup quiz ((quiz.correct_answer).getD ['A']) = t1 ∨
        optLookup quiz ((quiz.correct_answer).getD ['A']) = t2 ∨
        optLookup quiz ((quiz.correct_answer).getD ['A']) = t3 := by
      simpa using hctm
    obtain ⟨hc1, ha, hb, hc, hd, hq, he⟩ := shuffle_core quiz t0 t1 t2 t3 hmem
    refine ⟨hc1, ?_, hq, he⟩
    rw [ha, hb, hc, hd]
    simpa using hperm

/-- Witness for `shuffle_quiz_options_correct` at a concrete quiz and a
concrete (reversing) permutation of its options. -/
theorem shuffle_quiz_options_correct_witness :
    optLookup (shuffle_quiz_options
        { question := some ("Q".toList), option_a := some ("w".toList),
          option_b := some ("x".toList), option_c := some ("y".toList),
          option_d := some ("z".toList), correct_answer := some ['B'] }
        [("z".toList), ("y".toList), ("x".toList), ("w".toList)])
        (((shuffle_quiz_options
        { question := some ("Q".toList), option_a := some ("w".toList),
          option_b := some ("x".toList), option_c := some ("y".toList),
          option_d := some ("z".toList), correct_answer := some ['B'] }
        [("z".toList), ("y".toList), ("x".toList), ("w".toList)]).correct_answer).getD ['A'])
      = optLookup
        { question := some ("Q".toList), option_a := some ("w".toList),
          option_b := some ("x".toList), option_c := some ("y".toList),
          option_d := some ("z".toList), correct_answer := some ['B'] }
        ((some ['B'] : Option PyStr).getD ['A'])
    ∧ [(shuffle_quiz_options
        { question := some ("Q".toList), option_a := some ("w".toList),
          option_b := some ("x".toList), option_c := some ("y".toList),
          option_d := some ("z".toList), correct_answer := some ['B'] }
        [("z".toList), ("y".toList), ("x".toList), ("w".toList)]).option_a.getD [],
       (shuffle_quiz_options
        { question := some ("Q".toList), option_a := some ("w".toList),
          option_b := some ("x".toList), option_c := some ("y".toList),
          option_d := some ("z".toList), correct_answer := some ['B'] }
        [("z".toList), ("y".toList), ("x".toList), ("w".toList)]).option_b.getD [],
       (shuffle_quiz_options
        { question := some ("Q".toList), option_a := some ("w".toList),
          option_b := some ("x".toList), option_c := some ("y".toList),
          option_d := some ("z".toList), correct_answer := some ['B'] }
        [("z".toList), ("y".toList), ("x".toList), ("w".toList)]).option_c.getD [],
       (shuffle_quiz_options
        { question := some ("Q".toList), option_a := some ("w".toList),
          option_b := some ("x".toList), option_c := some ("y".toList),
          option_d := some ("z".toList), correct_answer := some ['B'] }
        [("z".toList), ("y".toList), ("x".toList), ("w".toList)]).option_d.getD []].Perm
        [("w".toList), ("x".toList), ("y".toList), ("z".toList)]
    ∧ (shuffle_quiz_options
        { question := some ("Q".toList), option_a := some ("w".toList),
          option_b := some ("x".toList), option_c := some ("y".toList),
          option_d := some ("z".toList), correct_answer := some ['B'] }
        [("z".toList), ("y".toList), ("x".toList), ("w".toList)]).question
        = some ("Q".toList)
    ∧ (shuffle_quiz_options
        { question := some ("Q".toList), option_a := some ("w".toList),
          option_b := some ("x".toList), option_c := some ("y".toList),
          option_d := some ("z".toList), correct_answer := some ['B'] }
        [("z".toList), ("y".toList), ("x".toList), ("w".toList)]).explanation = none :=
  shuffle_quiz_options_correct
    { question := some ("Q".toList), option_a := some ("w".toList),
      option_b := some ("x".toList), option_c := some ("y".toList),
      option_d := some ("z".toList), correct_answer := some ['B'] }
    [("z".toList), ("y".toList), ("x".toList), ("w".toList)]
    (by decide) (by decide) (by decide)

end Text2Learn
